import Mathlib

/-!
Verification of the job-queue build orchestrator
(src/src/cargo/ops/cargo_rustc/job_queue.rs).

The development shallowly embeds the orchestrator: pure pieces of the Rust
source become Lean functions, the scheduling loop of `execute` becomes a
fuel-indexed recursive function over an explicit scheduler state, and the
nondeterminism of worker completion order is captured by a `schedule`
argument choosing which in-flight completion message is delivered next.

Types that belong to the repository but are not under src/ (the `Freshness`
lattice, the generic `DependencyQueue`, `Resolve`, `Job`, `TaskPool`,
the completion channel) are modelled from the specification; each such
definition carries a doc comment saying so.
-/

/-- Modelled from the spec: the `Freshness` type of util (not under src/):
a two-value state, Fresh or Dirty. -/
inductive Freshness where
  | Fresh : Freshness
  | Dirty : Freshness
deriving DecidableEq, Repr

/-- Modelled from the spec: the `combine` operation of util (not under src/):
combine(Dirty, x) = Dirty, combine(Fresh, Fresh) = Fresh, Fresh is the
identity, so combine(Fresh, x) = x. -/
def Freshness.combine : Freshness → Freshness → Freshness
  | Freshness.Fresh, f => f
  | Freshness.Dirty, _ => Freshness.Dirty

/-- Package identities are opaque equality-and-hash keys; model them as
natural numbers. -/
abbrev PackageId := Nat

/-- Modelled from the spec: the `Package` type of core (not under src/).
The scheduler only ever calls get_package_id on it. -/
structure Package where
  pkgId : PackageId
deriving DecidableEq, Repr

/-- The source's pkg.get_package_id() accessor. -/
def Package.get_package_id (p : Package) : PackageId := p.pkgId

/-- The TargetStage enum of job_queue.rs: the five per-package pipeline
stages. -/
inductive TargetStage where
  | StageStart : TargetStage
  | StageCustomBuild : TargetStage
  | StageLibraries : TargetStage
  | StageBinaries : TargetStage
  | StageEnd : TargetStage
deriving DecidableEq, Repr

/-- A node key of the dependency queue: (&PackageId, TargetStage) in the
source. -/
abbrev StageKey := PackageId × TargetStage

/-- Modelled from the spec: the `Resolve` context of core (not under src/).
The scheduler only calls resolve.deps(id), which yields an optional iterator
of the direct dependencies of a package. -/
structure Resolve where
  deps : PackageId → Option (List PackageId)

/-- The Dependency implementation for (&PackageId, TargetStage) at the bottom
of job_queue.rs: the static stage-topology rule. StageStart depends on the
StageEnd of every direct dependency other than the package itself;
the middle stages chain linearly; StageEnd depends on both StageBinaries
and StageLibraries of the same package. -/
def dependencies (k : StageKey) (resolve : Resolve) : List StageKey :=
  match k with
  | (id, TargetStage.StageStart) =>
      ((((resolve.deps id).toList).flatten).filter (fun dep => dep ≠ id)).map
        (fun dep => (dep, TargetStage.StageEnd))
  | (id, TargetStage.StageCustomBuild) => [(id, TargetStage.StageStart)]
  | (id, TargetStage.StageLibraries) => [(id, TargetStage.StageCustomBuild)]
  | (id, TargetStage.StageBinaries) => [(id, TargetStage.StageLibraries)]
  | (id, TargetStage.StageEnd) =>
      [(id, TargetStage.StageBinaries), (id, TargetStage.StageLibraries)]

/-- Combine over Freshness is commutative. -/
theorem Freshness.combine_comm (a b : Freshness) : a.combine b = b.combine a := by
  cases a <;> cases b <;> rfl

/-- Combine over Freshness is associative. -/
theorem Freshness.combine_assoc (a b c : Freshness) :
    (a.combine b).combine c = a.combine (b.combine c) := by
  cases a <;> cases b <;> cases c <;> rfl

/-- Combine over Freshness is idempotent. -/
theorem Freshness.combine_self (a : Freshness) : a.combine a = a := by
  cases a <;> rfl

/-- Fresh is a left identity for combine. -/
theorem Freshness.fresh_combine (a : Freshness) :
    Freshness.Fresh.combine a = a := rfl

/-- Fresh is a right identity for combine. -/
theorem Freshness.combine_fresh (a : Freshness) :
    a.combine Freshness.Fresh = a := by
  cases a <;> rfl

/-- Dirty absorbs on the right as well. -/
theorem Freshness.combine_dirty (a : Freshness) :
    a.combine Freshness.Dirty = Freshness.Dirty := by
  cases a <;> rfl

/-- C8: the combine operation on Freshness is associative, commutative and
idempotent, Fresh is its identity element, and Dirty is absorbing, so
Freshness with combine is a join-semilattice. -/
theorem claim_c8_combine_semilattice :
    (∀ a b c : Freshness, (a.combine b).combine c = a.combine (b.combine c)) ∧
    (∀ a b : Freshness, a.combine b = b.combine a) ∧
    (∀ a : Freshness, a.combine a = a) ∧
    (∀ a : Freshness, Freshness.Fresh.combine a = a) ∧
    (∀ a : Freshness, a.combine Freshness.Fresh = a) ∧
    (∀ a : Freshness, Freshness.Dirty.combine a = Freshness.Dirty) ∧
    (∀ a : Freshness, a.combine Freshness.Dirty = Freshness.Dirty) := by
  refine ⟨Freshness.combine_assoc, Freshness.combine_comm, Freshness.combine_self,
    Freshness.fresh_combine, Freshness.combine_fresh, fun a => rfl,
    Freshness.combine_dirty⟩

/-- C5: the dependency-edge function returns exactly the sets of the stage
table: for StageStart, the StageEnd node of every direct dependency of the
package excluding the package itself (so a package never depends on its own
StageEnd node); for the other stages, the fixed intra-package edges. -/
theorem claim_c5_dependency_edges :
    (∀ (p q : PackageId) (s : TargetStage) (r : Resolve),
        (q, s) ∈ dependencies (p, TargetStage.StageStart) r ↔
          s = TargetStage.StageEnd ∧ q ∈ ((r.deps p).toList).flatten ∧ q ≠ p) ∧
    (∀ (p : PackageId) (r : Resolve),
        (p, TargetStage.StageEnd) ∉ dependencies (p, TargetStage.StageStart) r) ∧
    (∀ (p : PackageId) (r : Resolve),
        dependencies (p, TargetStage.StageCustomBuild) r =
          [(p, TargetStage.StageStart)] ∧
        dependencies (p, TargetStage.StageLibraries) r =
          [(p, TargetStage.StageCustomBuild)] ∧
        dependencies (p, TargetStage.StageBinaries) r =
          [(p, TargetStage.StageLibraries)] ∧
        dependencies (p, TargetStage.StageEnd) r =
          [(p, TargetStage.StageBinaries), (p, TargetStage.StageLibraries)]) := by
  refine ⟨?_, ?_, ?_⟩
  · intro p q s r
    simp only [dependencies, List.mem_map, List.mem_filter]
    constructor
    · rintro ⟨dep, ⟨hmem, hne⟩, heq⟩
      cases heq
      exact ⟨rfl, hmem, by simpa using hne⟩
    · rintro ⟨rfl, hmem, hne⟩
      exact ⟨q, ⟨hmem, by simpa using hne⟩, rfl⟩
  · intro p r h
    simp only [dependencies, List.mem_map, List.mem_filter] at h
    rcases h with ⟨dep, ⟨_, hne⟩, heq⟩
    cases heq
    simp at hne
  · intro p r
    exact ⟨rfl, rfl, rfl, rfl⟩

/-- Results of fallible operations: CargoResult<()> in the source. -/
abbrev CargoResult (α : Type) := Except String α

/-- Modelled from the spec: the opaque `Job` collaborator (not under src/):
a describe operation for diagnostics and a run operation taking the
effective freshness and producing a result. -/
structure Job where
  desc : String
  runJob : Freshness → CargoResult Unit

/-- A completion message: (PackageId, TargetStage, Freshness, CargoResult<()>),
the Message type of job_queue.rs. -/
abbrev Message := PackageId × TargetStage × Freshness × CargoResult Unit

/-- Modelled from the spec: the generic `DependencyQueue` of util (not under
src/), instantiated at the key and payload types job_queue.rs uses. It keeps
the unfinished nodes with their accumulated initial freshness and payload,
the finished nodes with their finishing freshness, and the keys already
handed out by dequeue (so a node is returned at most once). -/
structure DependencyQueue where
  entries : List (StageKey × Freshness × Package × List (Job × Freshness))
  finishedNodes : List (StageKey × Freshness)
  dequeuedKeys : List StageKey

/-- Modelled from the spec: an empty dependency queue. -/
def DependencyQueue.new : DependencyQueue := ⟨[], [], []⟩

/-- Association-list lookup used throughout the model for the maps the
source keeps in HashMaps. -/
def keyFind {α : Type} [DecidableEq α] {β : Type} :
    List (α × β) → α → Option β
  | [], _ => none
  | (k, v) :: rest, a => if k = a then some v else keyFind rest a

/-- Insertion step of the modelled DependencyQueue enqueue: if the key is
already present the payload is last-write and the initial freshness
accumulates via combine, otherwise the node is appended. -/
def entriesInsert :
    List (StageKey × Freshness × Package × List (Job × Freshness)) →
      Freshness → StageKey → Package → List (Job × Freshness) →
      List (StageKey × Freshness × Package × List (Job × Freshness))
  | [], f, k, pkg, jobs => [(k, f, pkg, jobs)]
  | (k0, f0, pkg0, jobs0) :: rest, f, k, pkg, jobs =>
      if k0 = k then (k, f0.combine f, pkg, jobs) :: rest
      else (k0, f0, pkg0, jobs0) :: entriesInsert rest f k pkg jobs

/-- Modelled from the spec: enqueue registers a node; if the key is already
present the payload is last-write and the initial freshness accumulates via
combine. -/
def DependencyQueue.enqueue (q : DependencyQueue) (_ctx : Resolve)
    (f : Freshness) (k : StageKey) (pkg : Package)
    (jobs : List (Job × Freshness)) : DependencyQueue :=
  { q with entries := entriesInsert q.entries f k pkg jobs }

/-- Finishing freshness recorded for a key, if that key has been finished. -/
def DependencyQueue.finishedFresh (q : DependencyQueue) (k : StageKey) :
    Option Freshness :=
  keyFind q.finishedNodes k

/-- Whether a key has been marked finished. -/
def DependencyQueue.isNodeFinished (q : DependencyQueue) (k : StageKey) : Bool :=
  (keyFind q.finishedNodes k).isSome

/-- Modelled from the spec: a node is ready when every dependency edge has
been finished and the node has not already been handed out by dequeue. -/
def DependencyQueue.isReady (q : DependencyQueue) (ctx : Resolve)
    (k : StageKey) : Bool :=
  ((dependencies k ctx).all (fun d => q.isNodeFinished d)) &&
    !(q.dequeuedKeys.contains k)

/-- Modelled from the spec: dequeue returns one ready node, with freshness
the combine of the node's accumulated initial freshness and of the finishing
freshness values of all its dependencies (Fresh if it has none), marking the
key so it is never returned again; it returns nothing when no node is ready. -/
def DependencyQueue.dequeue (q : DependencyQueue) (ctx : Resolve) :
    Option (Freshness × StageKey × Package × List (Job × Freshness)) ×
      DependencyQueue :=
  match q.entries.find? (fun e => q.isReady ctx e.1) with
  | none => (none, q)
  | some (k, f0, pkg, jobs) =>
      let f := (dependencies k ctx).foldl
        (fun acc d => acc.combine ((q.finishedFresh d).getD Freshness.Fresh)) f0
      (some (f, k, pkg, jobs),
       { q with dequeuedKeys := q.dequeuedKeys ++ [k] })

/-- Modelled from the spec: finish marks a node done, removing it from the
unfinished set and recording its outcome freshness for dependents. -/
def DependencyQueue.finish (q : DependencyQueue) (k : StageKey)
    (f : Freshness) : DependencyQueue :=
  { q with entries := q.entries.filter (fun e => e.1 ≠ k),
           finishedNodes := q.finishedNodes ++ [(k, f)] }

/-- Modelled from the spec: len is the number of nodes not yet finished. -/
def DependencyQueue.len (q : DependencyQueue) : Nat := q.entries.length

/-- The PendingBuild record of job_queue.rs: remaining job count and the
freshness accumulated across the node's jobs. -/
structure PendingBuild where
  amt : Nat
  fresh : Freshness
deriving DecidableEq, Repr

/-- The coordinator-owned state of JobQueue: the dependency queue, the count
of active work units, the pending table and the package freshness state.
The worker pool and channel are modelled separately as an in-flight message
multiset consumed under an explicit delivery schedule. -/
structure JobQueueSt where
  queue : DependencyQueue
  active : Nat
  pending : List (StageKey × PendingBuild)
  state : List (PackageId × Freshness)
  resolve : Resolve

/-- JobQueue::new: an empty scheduler over a resolve context. -/
def JobQueue.new (resolve : Resolve) : JobQueueSt :=
  ⟨DependencyQueue.new, 0, [], [], resolve⟩

/-- The fold in JobQueue::enqueue computing a node's intrinsic freshness:
jobs.iter().fold(Fresh, |f1, &(_, f2)| f1.combine(f2)). -/
def intrinsicFreshness (jobs : List (Job × Freshness)) : Freshness :=
  jobs.foldl (fun f1 jf => f1.combine jf.2) Freshness.Fresh

/-- The state.find_or_insert(id, fresh) followed by *prev = prev.combine(fresh)
of JobQueue::enqueue, on an association list. -/
def stateFindOrInsertCombine :
    List (PackageId × Freshness) → PackageId → Freshness →
      List (PackageId × Freshness)
  | [], id, f => [(id, f.combine f)]
  | (k, v) :: rest, id, f =>
      if k = id then (k, v.combine f) :: rest
      else (k, v) :: stateFindOrInsertCombine rest id f

/-- JobQueue::enqueue: fold the intrinsic freshness into the package state,
then register the node in the dependency queue; the initial freshness
argument the source passes to the queue is Fresh. -/
def JobQueue.enqueue (jq : JobQueueSt) (pkg : Package) (stage : TargetStage)
    (jobs : List (Job × Freshness)) : JobQueueSt :=
  let fresh := intrinsicFreshness jobs
  { jq with
      state := stateFindOrInsertCombine jq.state pkg.get_package_id fresh,
      queue := jq.queue.enqueue jq.resolve Freshness.Fresh
        (pkg.get_package_id, stage) pkg jobs }

/-- Lookup in the package freshness state. -/
def stateLookup (s : List (PackageId × Freshness)) (id : PackageId) :
    Option Freshness :=
  keyFind s id

/-- Initial freshness currently accumulated in the queue for a key. -/
def entryInitFresh (q : DependencyQueue) (k : StageKey) : Option Freshness :=
  (keyFind q.entries k).map (fun e => e.1)

/-- One enqueue call of the driver: a package, a stage, and that node's
jobs with their intrinsic freshness values. -/
structure EnqueueCall where
  pkg : Package
  stage : TargetStage
  jobs : List (Job × Freshness)

/-- A sequence of JobQueue::enqueue calls. -/
def enqueueAll (jq : JobQueueSt) (calls : List EnqueueCall) : JobQueueSt :=
  calls.foldl (fun a c => JobQueue.enqueue a c.pkg c.stage c.jobs) jq

/-- Intrinsic freshness values of the calls made for one package, in order. -/
def intrinsicsFor (p : PackageId) (calls : List EnqueueCall) : List Freshness :=
  (calls.filter (fun c => c.pkg.get_package_id = p)).map
    (fun c => intrinsicFreshness c.jobs)

/-- Updating the package state at a key yields the combined value there. -/
theorem stateFindOrInsertCombine_self (s : List (PackageId × Freshness))
    (id : PackageId) (f : Freshness) :
    keyFind (stateFindOrInsertCombine s id f) id =
      some (match keyFind s id with
            | none => f.combine f
            | some v => v.combine f) := by
  induction s with
  | nil => simp [stateFindOrInsertCombine, keyFind]
  | cons hd tl ih =>
    obtain ⟨k, v⟩ := hd
    by_cases h : k = id
    · subst h
      simp [stateFindOrInsertCombine, keyFind]
    · simp [stateFindOrInsertCombine, keyFind, h, ih]

/-- Updating the package state at one key leaves other keys unchanged. -/
theorem stateFindOrInsertCombine_other (s : List (PackageId × Freshness))
    (id p : PackageId) (f : Freshness) (hne : p ≠ id) :
    keyFind (stateFindOrInsertCombine s id f) p = keyFind s p := by
  have hne2 : id ≠ p := fun h => hne h.symm
  induction s with
  | nil => simp [stateFindOrInsertCombine, keyFind, hne2]
  | cons hd tl ih =>
    obtain ⟨k, v⟩ := hd
    by_cases h : k = id
    · subst h
      simp [stateFindOrInsertCombine, keyFind, hne2]
    · by_cases h2 : k = p
      · subst h2
        simp [stateFindOrInsertCombine, keyFind, h]
      · simp [stateFindOrInsertCombine, keyFind, h, h2, ih]

/-- Inserting a new key into the queue entries stores its freshness. -/
theorem entriesInsert_new
    (es : List (StageKey × Freshness × Package × List (Job × Freshness)))
    (f : Freshness) (k : StageKey) (pkg : Package)
    (jobs : List (Job × Freshness)) (hnew : keyFind es k = none) :
    keyFind (entriesInsert es f k pkg jobs) k = some (f, pkg, jobs) := by
  induction es with
  | nil => simp [entriesInsert, keyFind]
  | cons hd tl ih =>
    obtain ⟨k0, rest⟩ := hd
    by_cases h : k0 = k
    · subst h
      simp [keyFind] at hnew
    · simp [keyFind, h] at hnew
      simp [entriesInsert, keyFind, h, ih hnew]

/-- Concrete resolve context with no dependency edges. -/
def c1Resolve : Resolve := ⟨fun _ => none⟩

/-- Concrete job whose run always succeeds. -/
def c1Job : Job := ⟨"build lib target", fun _ => Except.ok ()⟩

/-- Concrete package with identity 0. -/
def c1Pkg : Package := ⟨0⟩

/-- State after enqueueing one node with a single Dirty job. -/
def c1Jq : JobQueueSt :=
  JobQueue.enqueue (JobQueue.new c1Resolve) c1Pkg TargetStage.StageStart
    [(c1Job, Freshness.Dirty)]

/-- C1 counterexample: enqueueing a node whose single job is Dirty gives the
node intrinsic freshness Dirty, yet the freshness registered for the key in
the dependency queue is Fresh, not the intrinsic freshness: the source passes
the literal Fresh to DependencyQueue::enqueue. -/
theorem claim_c1_counterexample :
    intrinsicFreshness [(c1Job, Freshness.Dirty)] = Freshness.Dirty ∧
    entryInitFresh c1Jq.queue (0, TargetStage.StageStart) =
      some Freshness.Fresh ∧
    entryInitFresh c1Jq.queue (0, TargetStage.StageStart) ≠
      some (intrinsicFreshness [(c1Job, Freshness.Dirty)]) := by
  refine ⟨rfl, rfl, by decide⟩

/-- C1 (amended): enqueue computes the node's intrinsic freshness as the
combine of all jobs' freshness values (Fresh when the jobs list is empty)
and folds it into the package freshness state, but registers the key in the
dependency queue with the constant Fresh as the initial freshness argument,
not with the intrinsic freshness. -/
theorem claim_c1_enqueue_passes_fresh (jq : JobQueueSt) (pkg : Package)
    (stage : TargetStage) (jobs : List (Job × Freshness))
    (hnew : keyFind jq.queue.entries (pkg.get_package_id, stage) = none) :
    (JobQueue.enqueue jq pkg stage jobs).state =
      stateFindOrInsertCombine jq.state pkg.get_package_id
        (intrinsicFreshness jobs) ∧
    intrinsicFreshness jobs =
      jobs.foldl (fun f1 jf => f1.combine jf.2) Freshness.Fresh ∧
    intrinsicFreshness ([] : List (Job × Freshness)) = Freshness.Fresh ∧
    entryInitFresh (JobQueue.enqueue jq pkg stage jobs).queue
      (pkg.get_package_id, stage) = some Freshness.Fresh := by
  refine ⟨rfl, rfl, rfl, ?_⟩
  show (keyFind (entriesInsert jq.queue.entries Freshness.Fresh
      (pkg.get_package_id, stage) pkg jobs) (pkg.get_package_id, stage)).map
      (fun e => e.1) = some Freshness.Fresh
  rw [entriesInsert_new _ _ _ _ _ hnew]
  rfl

/-- C1 witness: the amended statement at the concrete single-Dirty-job input. -/
theorem claim_c1_enqueue_passes_fresh_witness :
    (JobQueue.enqueue (JobQueue.new c1Resolve) c1Pkg TargetStage.StageStart
        [(c1Job, Freshness.Dirty)]).state =
      stateFindOrInsertCombine (JobQueue.new c1Resolve).state
        c1Pkg.get_package_id
        (intrinsicFreshness [(c1Job, Freshness.Dirty)]) ∧
    intrinsicFreshness [(c1Job, Freshness.Dirty)] =
      [(c1Job, Freshness.Dirty)].foldl (fun f1 jf => f1.combine jf.2)
        Freshness.Fresh ∧
    intrinsicFreshness ([] : List (Job × Freshness)) = Freshness.Fresh ∧
    entryInitFresh (JobQueue.enqueue (JobQueue.new c1Resolve) c1Pkg
        TargetStage.StageStart [(c1Job, Freshness.Dirty)]).queue
      (c1Pkg.get_package_id, TargetStage.StageStart) = some Freshness.Fresh :=
  claim_c1_enqueue_passes_fresh (JobQueue.new c1Resolve) c1Pkg
    TargetStage.StageStart [(c1Job, Freshness.Dirty)] rfl

/-- Folding a list of freshness values into an optional accumulated state:
the shape the package freshness state takes across enqueue calls. -/
def foldFresh (o : Option Freshness) (fs : List Freshness) : Option Freshness :=
  match o, fs with
  | none, [] => none
  | none, f :: rest => some (rest.foldl Freshness.combine f)
  | some v, rest => some (rest.foldl Freshness.combine v)

/-- Folding combine from Dirty stays Dirty. -/
theorem foldl_combine_dirty (l : List Freshness) :
    l.foldl Freshness.combine Freshness.Dirty = Freshness.Dirty := by
  induction l with
  | nil => rfl
  | cons hd tl ih => simpa [List.foldl] using ih

/-- The package freshness state after a sequence of enqueue calls is the
fold of the intrinsic freshness values of the calls made for each package
over the starting state. -/
theorem enqueueAll_stateLookup (calls : List EnqueueCall) (jq : JobQueueSt)
    (p : PackageId) :
    stateLookup (enqueueAll jq calls).state p =
      foldFresh (stateLookup jq.state p) (intrinsicsFor p calls) := by
  induction calls generalizing jq with
  | nil =>
    show stateLookup jq.state p = foldFresh (stateLookup jq.state p) []
    cases stateLookup jq.state p <;> rfl
  | cons c cs ih =>
    show stateLookup (enqueueAll (JobQueue.enqueue jq c.pkg c.stage c.jobs) cs).state p = _
    rw [ih]
    by_cases hc : c.pkg.get_package_id = p
    · have hfor : intrinsicsFor p (c :: cs) =
          intrinsicFreshness c.jobs :: intrinsicsFor p cs := by
        simp [intrinsicsFor, List.filter, hc]
      rw [hfor]
      have hlook : stateLookup (JobQueue.enqueue jq c.pkg c.stage c.jobs).state p =
          some (match stateLookup jq.state p with
                | none => (intrinsicFreshness c.jobs).combine (intrinsicFreshness c.jobs)
                | some v => v.combine (intrinsicFreshness c.jobs)) := by
        show keyFind (stateFindOrInsertCombine jq.state c.pkg.get_package_id
            (intrinsicFreshness c.jobs)) p = _
        rw [hc]
        exact stateFindOrInsertCombine_self jq.state p (intrinsicFreshness c.jobs)
      rw [hlook]
      cases h : stateLookup jq.state p with
      | none =>
        simp only [h, foldFresh, Freshness.combine_self]
      | some v =>
        simp only [h, foldFresh, List.foldl]
    · have hfor : intrinsicsFor p (c :: cs) = intrinsicsFor p cs := by
        simp [intrinsicsFor, List.filter, hc]
      rw [hfor]
      have hlook : stateLookup (JobQueue.enqueue jq c.pkg c.stage c.jobs).state p =
          stateLookup jq.state p := by
        show keyFind (stateFindOrInsertCombine jq.state c.pkg.get_package_id
            (intrinsicFreshness c.jobs)) p = keyFind jq.state p
        exact stateFindOrInsertCombine_other jq.state c.pkg.get_package_id p
          (intrinsicFreshness c.jobs) (fun h => hc h.symm)
      rw [hlook]

/-- C9: across any sequence of enqueue calls starting from a new job queue,
the package freshness state maps each PackageId to the combine of the
intrinsic freshness values of every node enqueued for that package so far
(and to nothing when no node was enqueued for it); and the mapping is
monotone under combine: once Dirty, no later enqueue makes it Fresh again. -/
theorem claim_c9_package_state_fold :
    (∀ (resolve : Resolve) (calls : List EnqueueCall) (p : PackageId),
        stateLookup (enqueueAll (JobQueue.new resolve) calls).state p =
          match intrinsicsFor p calls with
          | [] => none
          | f :: rest => some (rest.foldl Freshness.combine f)) ∧
    (∀ (jq : JobQueueSt) (calls : List EnqueueCall) (p : PackageId),
        stateLookup jq.state p = some Freshness.Dirty →
        stateLookup (enqueueAll jq calls).state p = some Freshness.Dirty) := by
  constructor
  · intro resolve calls p
    rw [enqueueAll_stateLookup]
    show foldFresh (keyFind [] p) (intrinsicsFor p calls) = _
    cases intrinsicsFor p calls <;> rfl
  · intro jq calls p h
    rw [enqueueAll_stateLookup, h]
    show some ((intrinsicsFor p calls).foldl Freshness.combine Freshness.Dirty) = _
    rw [foldl_combine_dirty]

/-- C9 witness: after enqueueing a Dirty node for package 0, a further
enqueue call for package 0 with no jobs leaves its state Dirty. -/
theorem claim_c9_package_state_fold_witness :
    stateLookup (enqueueAll c1Jq
        [⟨c1Pkg, TargetStage.StageLibraries, []⟩]).state 0 =
      some Freshness.Dirty :=
  claim_c9_package_state_fold.2 c1Jq
    [⟨c1Pkg, TargetStage.StageLibraries, []⟩] 0 rfl

deriving instance DecidableEq for Except

/-- Observable events of one execution, in coordinator order: node dispatch,
the package status line (carrying the decided freshness: Fresh prints
"Fresh", Dirty prints "Compiling"), job description diagnostics, submission
of a job to the worker pool, the synthetic send for zero-job nodes, message
receipt, the drain notice after a failure, and finish calls on the
dependency queue. -/
inductive Event where
  | dispatchNode (id : PackageId) (stage : TargetStage) (fresh : Freshness)
  | statusLine (id : PackageId) (decided : Freshness)
  | describeJob (d : String)
  | submitJob (id : PackageId) (stage : TargetStage) (eff : Freshness)
  | syntheticSend (id : PackageId) (stage : TargetStage) (fresh : Freshness)
  | recvMsg (m : Message)
  | drainNotice
  | finishNode (k : StageKey) (f : Freshness)
deriving DecidableEq, Repr

/-- Indexing into the package freshness state: self.state[id] in the source.
The source's indexing fails when the id is absent; the model totalizes the
read with Fresh, and every execution considered keeps the id present. -/
def stateIndex (s : List (PackageId × Freshness)) (id : PackageId) : Freshness :=
  (keyFind s id).getD Freshness.Fresh

/-- HashMap::insert on the pending table: overwrite or append. -/
def pendingInsert :
    List (StageKey × PendingBuild) → StageKey → PendingBuild →
      List (StageKey × PendingBuild)
  | [], k, pb => [(k, pb)]
  | (k0, pb0) :: rest, k, pb =>
      if k0 = k then (k, pb) :: rest
      else (k0, pb0) :: pendingInsert rest k pb

/-- The per-job loop of JobQueue::run: for each job compute the effective
freshness as combine(job freshness, node freshness), emit the description
when it is Dirty, submit the job, and record the completion message the
worker will send. -/
def jobLoop (id : PackageId) (stage : TargetStage) (fresh : Freshness) :
    List (Job × Freshness) → List Event × List Message
  | [] => ([], [])
  | jf :: rest =>
      let eff := jf.2.combine fresh
      let restOut := jobLoop id stage fresh rest
      ((if eff = Freshness.Dirty then [Event.describeJob jf.1.desc] else []) ++
        Event.submitJob id stage eff :: restOut.1,
       (id, stage, eff, jf.1.runJob eff) :: restOut.2)

/-- JobQueue::run: dispatch one dequeued node. Emits the status line at the
StageStart stage, bumps the active count by the number of work units (one
when the jobs list is empty), records the PendingBuild, runs the job loop,
and sends a synthetic success message for zero-job nodes. -/
def JobQueue.run (jq : JobQueueSt) (pkg : Package) (stage : TargetStage)
    (fresh : Freshness) (jobs : List (Job × Freshness)) :
    JobQueueSt × List Event × List Message :=
  let njobs := jobs.length
  let amt := if njobs = 0 then 1 else njobs
  let id := pkg.get_package_id
  let statusEvents : List Event :=
    if stage = TargetStage.StageStart then
      [Event.statusLine id (fresh.combine (stateIndex jq.state id))]
    else []
  let jl := jobLoop id stage fresh jobs
  let syntheticEvents : List Event :=
    if njobs = 0 then [Event.syntheticSend id stage fresh] else []
  let msgs :=
    if njobs = 0 then jl.2 ++ [(id, stage, fresh, Except.ok ())] else jl.2
  ({ jq with active := jq.active + amt,
             pending := pendingInsert jq.pending (id, stage) ⟨amt, fresh⟩ },
   Event.dispatchNode id stage fresh :: statusEvents ++ jl.1 ++ syntheticEvents,
   msgs)

/-- The inner drain loop of execute: dequeue ready nodes until none is
ready, dispatching each via run. The fuel bounds the number of dequeues; a
fuel of one more than the entry count always drains fully, since every
dequeue consumes one never-dequeued entry. -/
def dispatchAll : Nat → JobQueueSt → JobQueueSt × List Event × List Message
  | 0, jq => (jq, [], [])
  | fuel + 1, jq =>
    match jq.queue.dequeue jq.resolve with
    | (none, _) => (jq, [], [])
    | (some (fresh, k, pkg, jobs), q2) =>
        let r := JobQueue.run { jq with queue := q2 } pkg k.2 fresh jobs
        let rest := dispatchAll fuel r.1
        (rest.1, r.2.1 ++ rest.2.1, r.2.2 ++ rest.2.2)

/-- Result of processing one received completion message: the success path
(with the finish events it produced), the failure path (carrying the error
and the state after the active decrement), or a failed lookup, which models
the unwrap on the state-key search and the pending-table access in the
source. -/
inductive ProcRes where
  | okRes (jq : JobQueueSt) (events : List Event)
  | failRes (e : String) (jq : JobQueueSt)
  | lookupFailure
 
/-- Processing of one received message in JobQueue::execute: re-derive the
package key from the state map (unwrap), decrement active, and on success
decrement the node's PendingBuild, combine the message freshness in, and
finish the node when the count reaches zero; on failure return the error. -/
def processMessage (jq : JobQueueSt) (m : Message) : ProcRes :=
  match keyFind jq.state m.1 with
  | none => ProcRes.lookupFailure
  | some _ =>
    match m.2.2.2 with
    | Except.ok _ =>
        match keyFind jq.pending (m.1, m.2.1) with
        | none => ProcRes.lookupFailure
        | some pb =>
            let pb2 : PendingBuild := ⟨pb.amt - 1, pb.fresh.combine m.2.2.1⟩
            if pb2.amt = 0 then
              ProcRes.okRes
                { jq with active := jq.active - 1,
                          pending := pendingInsert jq.pending (m.1, m.2.1) pb2,
                          queue := jq.queue.finish (m.1, m.2.1) pb2.fresh }
                [Event.finishNode (m.1, m.2.1) pb2.fresh]
            else
              ProcRes.okRes
                { jq with active := jq.active - 1,
                          pending := pendingInsert jq.pending (m.1, m.2.1) pb2 }
                []
    | Except.error e => ProcRes.failRes e { jq with active := jq.active - 1 }

/-- Channel receive under an explicit schedule: pick the in-flight message
at the given position, returning it and the remaining multiset. -/
def pickMessage : List Message → Nat → Option (Message × List Message)
  | [], _ => none
  | m :: rest, 0 => some (m, rest)
  | m :: rest, n + 1 =>
      match pickMessage rest n with
      | none => none
      | some (m2, rest2) => some (m2, m :: rest2)

/-- The post-failure drain: receive exactly n further messages (their
outcomes are discarded), under the schedule. -/
def drainMessages : Nat → List Message → List Nat →
    Option (List Message × List Message × List Nat)
  | 0, inflight, sched => some ([], inflight, sched)
  | n + 1, inflight, sched =>
      match sched with
      | [] => none
      | i :: rest =>
          match pickMessage inflight i with
          | none => none
          | some (m, inflight2) =>
              match drainMessages n inflight2 rest with
              | none => none
              | some (ms, infl3, sched3) => some (m :: ms, infl3, sched3)

/-- Overall outcome of an execution. -/
inductive ExecRes where
  | success : ExecRes
  | failure (e : String) : ExecRes
  | lookupFailure : ExecRes
deriving DecidableEq, Repr

/-- The scheduling loop of JobQueue::execute: while the dependency queue has
unfinished nodes, drain all ready nodes, then receive one completion message
(chosen by the schedule) and process it; on a failure outcome drain as many
further messages as there are active work units and return the error. Fuel
bounds the number of loop iterations; none means the fuel ran out or the
schedule could not deliver a message. -/
def executeAux : Nat → JobQueueSt → List Message → List Nat →
    Option (ExecRes × JobQueueSt × List Event)
  | 0, _, _, _ => none
  | fuel + 1, jq, inflight, sched =>
    if jq.queue.len = 0 then some (ExecRes.success, jq, [])
    else
      let d := dispatchAll (jq.queue.entries.length + 1) jq
      let jq1 := d.1
      let evs1 := d.2.1
      let inflight1 := inflight ++ d.2.2
      match sched with
      | [] => none
      | i :: sched2 =>
        match pickMessage inflight1 i with
        | none => none
        | some (m, inflight2) =>
          match processMessage jq1 m with
          | ProcRes.okRes jq2 pevs =>
              match executeAux fuel jq2 inflight2 sched2 with
              | none => none
              | some (r, final, tr) =>
                  some (r, final, evs1 ++ Event.recvMsg m :: pevs ++ tr)
          | ProcRes.failRes e jq2 =>
              if jq2.active > 0 then
                match drainMessages jq2.active inflight2 sched2 with
                | none => none
                | some (ms, _, _) =>
                    some (ExecRes.failure e, jq2,
                      evs1 ++ Event.recvMsg m :: Event.drainNotice ::
                        ms.map Event.recvMsg)
              else
                some (ExecRes.failure e, jq2, evs1 ++ [Event.recvMsg m])
          | ProcRes.lookupFailure =>
              some (ExecRes.lookupFailure, jq1, evs1 ++ [Event.recvMsg m])

/-- A whole execution: enqueue all calls into a new job queue, then run the
scheduling loop under the given delivery schedule and fuel. -/
def execute (resolve : Resolve) (calls : List EnqueueCall) (sched : List Nat)
    (fuel : Nat) : Option (ExecRes × JobQueueSt × List Event) :=
  executeAux fuel (enqueueAll (JobQueue.new resolve) calls) [] sched

/-- Messages received, in receipt order, in a trace. -/
def recvList (tr : List Event) : List Message :=
  tr.filterMap (fun e => match e with
    | Event.recvMsg m => some m
    | _ => none)

/-- Number of work units handed to the channel in a trace: pool submissions
plus synthetic sends for zero-job nodes. -/
def unitCount (tr : List Event) : Nat :=
  tr.countP (fun e => match e with
    | Event.submitJob _ _ _ => true
    | Event.syntheticSend _ _ _ => true
    | _ => false)

/-- Status lines emitted for a package in a trace. -/
def statusCount (tr : List Event) (p : PackageId) : Nat :=
  tr.countP (fun e => match e with
    | Event.statusLine id _ => id = p
    | _ => false)

/-- Finish calls for a key in a trace. -/
def finishCount (tr : List Event) (k : StageKey) : Nat :=
  tr.countP (fun e => match e with
    | Event.finishNode k2 _ => k2 = k
    | _ => false)

/-- The messages produced by the job loop, one per job in order: package id,
stage, effective freshness, and the job's run result at that effective
freshness. -/
theorem jobLoop_msgs (id : PackageId) (stage : TargetStage) (fresh : Freshness)
    (jobs : List (Job × Freshness)) :
    (jobLoop id stage fresh jobs).2 = jobs.map (fun jf =>
      (id, stage, jf.2.combine fresh, jf.1.runJob (jf.2.combine fresh))) := by
  induction jobs with
  | nil => rfl
  | cons jf rest ih => simp [jobLoop, ih]

/-- The events produced by the job loop: per job, the description when the
effective freshness is Dirty, immediately followed by that job's pool
submission. -/
theorem jobLoop_events (id : PackageId) (stage : TargetStage)
    (fresh : Freshness) (jobs : List (Job × Freshness)) :
    (jobLoop id stage fresh jobs).1 = jobs.flatMap (fun jf =>
      (if jf.2.combine fresh = Freshness.Dirty
       then [Event.describeJob jf.1.desc] else []) ++
      [Event.submitJob id stage (jf.2.combine fresh)]) := by
  induction jobs with
  | nil => rfl
  | cons jf rest ih => simp [jobLoop, ih]

/-- C7: for every job of a dispatched node, the effective freshness is
combine(job freshness, node incoming freshness); the i-th completion message
handed to the worker is exactly (package id, stage, effective freshness, the
job's run result at that freshness); and the job's description is emitted,
directly before that job's submission, exactly when the effective freshness
is Dirty. -/
theorem claim_c7_effective_freshness (jq : JobQueueSt) (pkg : Package)
    (stage : TargetStage) (fresh : Freshness) (jobs : List (Job × Freshness))
    (i : Nat) (hi : i < jobs.length) :
    (JobQueue.run jq pkg stage fresh jobs).2.2[i]? =
      some (pkg.get_package_id, stage,
            (jobs.get ⟨i, hi⟩).2.combine fresh,
            (jobs.get ⟨i, hi⟩).1.runJob ((jobs.get ⟨i, hi⟩).2.combine fresh)) ∧
    (jobLoop pkg.get_package_id stage fresh jobs).1 = jobs.flatMap (fun jf =>
      (if jf.2.combine fresh = Freshness.Dirty
       then [Event.describeJob jf.1.desc] else []) ++
      [Event.submitJob pkg.get_package_id stage (jf.2.combine fresh)]) := by
  constructor
  · have hne : jobs.length ≠ 0 := Nat.pos_iff_ne_zero.mp (Nat.lt_of_le_of_lt (Nat.zero_le i) hi)
    show (if jobs.length = 0 then _ else (jobLoop pkg.get_package_id stage fresh jobs).2)[i]? = _
    rw [if_neg hne, jobLoop_msgs]
    have hlt : i < (jobs.map (fun jf =>
        (pkg.get_package_id, stage, jf.2.combine fresh,
         jf.1.runJob (jf.2.combine fresh)))).length := by
      simpa using hi
    rw [List.getElem?_eq_getElem hlt]
    simp
  · exact jobLoop_events pkg.get_package_id stage fresh jobs

/-- C7 witness: the single-job node at the concrete input, whose effective
freshness is Dirty. -/
theorem claim_c7_effective_freshness_witness :
    (JobQueue.run (JobQueue.new c1Resolve) c1Pkg TargetStage.StageLibraries
        Freshness.Dirty [(c1Job, Freshness.Fresh)]).2.2[0]? =
      some (c1Pkg.get_package_id, TargetStage.StageLibraries,
            (([(c1Job, Freshness.Fresh)].get ⟨0, by decide⟩).2.combine Freshness.Dirty),
            (([(c1Job, Freshness.Fresh)].get ⟨0, by decide⟩).1.runJob
              (([(c1Job, Freshness.Fresh)].get ⟨0, by decide⟩).2.combine Freshness.Dirty))) ∧
    (jobLoop c1Pkg.get_package_id TargetStage.StageLibraries Freshness.Dirty
        [(c1Job, Freshness.Fresh)]).1 =
      [(c1Job, Freshness.Fresh)].flatMap (fun jf =>
        (if jf.2.combine Freshness.Dirty = Freshness.Dirty
         then [Event.describeJob jf.1.desc] else []) ++
        [Event.submitJob c1Pkg.get_package_id TargetStage.StageLibraries
          (jf.2.combine Freshness.Dirty)]) :=
  claim_c7_effective_freshness (JobQueue.new c1Resolve) c1Pkg
    TargetStage.StageLibraries Freshness.Dirty [(c1Job, Freshness.Fresh)] 0
    (by decide)

/-- Inserting into the pending table stores the value at the key. -/
theorem pendingInsert_self (l : List (StageKey × PendingBuild)) (k : StageKey)
    (pb : PendingBuild) : keyFind (pendingInsert l k pb) k = some pb := by
  induction l with
  | nil => simp [pendingInsert, keyFind]
  | cons hd tl ih =>
    obtain ⟨k0, pb0⟩ := hd
    by_cases h : k0 = k
    · subst h
      simp [pendingInsert, keyFind]
    · simp [pendingInsert, keyFind, h, ih]

/-- Inserting into the pending table leaves other keys unchanged. -/
theorem pendingInsert_other (l : List (StageKey × PendingBuild))
    (k k2 : StageKey) (pb : PendingBuild) (hne : k2 ≠ k) :
    keyFind (pendingInsert l k pb) k2 = keyFind l k2 := by
  have hne2 : k ≠ k2 := fun h => hne h.symm
  induction l with
  | nil => simp [pendingInsert, keyFind, hne2]
  | cons hd tl ih =>
    obtain ⟨k0, pb0⟩ := hd
    by_cases h : k0 = k
    · subst h
      simp [pendingInsert, keyFind, hne2]
    · simp [pendingInsert, keyFind, h, ih]

/-- Sequential processing of a list of completion messages through the
success path of the execute loop. -/
def processSeq (jq : JobQueueSt) : List Message →
    Option (JobQueueSt × List Event)
  | [] => some (jq, [])
  | m :: rest =>
    match processMessage jq m with
    | ProcRes.okRes jq2 evs =>
        (processSeq jq2 rest).map (fun r => (r.1, evs ++ r.2))
    | _ => none

/-- Folding combine over a list is invariant under permutation. -/
theorem foldl_combine_perm {l1 l2 : List Freshness} (h : l1.Perm l2) :
    ∀ a : Freshness, l1.foldl Freshness.combine a = l2.foldl Freshness.combine a := by
  induction h with
  | nil => intro a; rfl
  | cons x _ ih => intro a; simp only [List.foldl]; exact ih _
  | swap x y l =>
    intro a
    simp only [List.foldl]
    have : (a.combine y).combine x = (a.combine x).combine y := by
      cases a <;> cases x <;> cases y <;> rfl
    rw [this]
  | trans _ _ ih1 ih2 => intro a; rw [ih1, ih2]

/-- Reduction of processMessage on a success message whose package id is in
the state map and whose key is in the pending table. -/
theorem processMessage_ok_def (jq : JobQueueSt) (m : Message) (v : Freshness)
    (n : Nat) (g : Freshness)
    (hst : keyFind jq.state m.1 = some v)
    (hres : m.2.2.2 = Except.ok ())
    (hpend : keyFind jq.pending (m.1, m.2.1) = some ⟨n, g⟩) :
    processMessage jq m =
      if n - 1 = 0 then
        ProcRes.okRes
          { jq with active := jq.active - 1,
                    pending := pendingInsert jq.pending (m.1, m.2.1)
                      ⟨n - 1, g.combine m.2.2.1⟩,
                    queue := jq.queue.finish (m.1, m.2.1)
                      (g.combine m.2.2.1) }
          [Event.finishNode (m.1, m.2.1) (g.combine m.2.2.1)]
      else
        ProcRes.okRes
          { jq with active := jq.active - 1,
                    pending := pendingInsert jq.pending (m.1, m.2.1)
                      ⟨n - 1, g.combine m.2.2.1⟩ }
          [] := by
  unfold processMessage
  rw [hst, hres, hpend]

/-- One step of processSeq on an empty tail. -/
theorem processSeq_cons_ok_nil (jq jq2 : JobQueueSt) (m : Message)
    (evs : List Event)
    (h : processMessage jq m = ProcRes.okRes jq2 evs) :
    processSeq jq [m] = some (jq2, evs) := by
  simp [processSeq, h]

/-- One step of processSeq followed by a known tail result. -/
theorem processSeq_cons_ok_rest (jq jq2 final : JobQueueSt) (m : Message)
    (evs evs2 : List Event) (rest : List Message)
    (h : processMessage jq m = ProcRes.okRes jq2 evs)
    (h2 : processSeq jq2 rest = some (final, evs2)) :
    processSeq jq (m :: rest) = some (final, evs ++ evs2) := by
  simp [processSeq, h, h2]

/-- Processing the success messages of one node in any order: with n
messages outstanding for the key and a PendingBuild of count n, processing
succeeds, finish fires exactly once, namely at the n-th message with the
accumulated freshness, no proper prefix fires it, and the pending record
remains present with count zero. -/
theorem processSeq_node (id : PackageId) (stage : TargetStage)
    (ws : List Message) :
    ∀ (jq0 : JobQueueSt) (n : Nat) (g : Freshness),
      (keyFind jq0.state id).isSome = true →
      keyFind jq0.pending (id, stage) = some ⟨n, g⟩ →
      (∀ m ∈ ws, m.1 = id ∧ m.2.1 = stage ∧ m.2.2.2 = Except.ok ()) →
      ws.length = n → 1 ≤ n →
      ∃ final evs, processSeq jq0 ws = some (final, evs) ∧
        finishCount evs (id, stage) = 1 ∧
        Event.finishNode (id, stage)
          ((ws.map (fun m => m.2.2.1)).foldl Freshness.combine g) ∈ evs ∧
        keyFind final.pending (id, stage) =
          some ⟨0, (ws.map (fun m => m.2.2.1)).foldl Freshness.combine g⟩ ∧
        (∀ i < n, ∃ mid evsi,
          processSeq jq0 (ws.take i) = some (mid, evsi) ∧
          finishCount evsi (id, stage) = 0) := by
  induction ws with
  | nil =>
    intro jq0 n g hstate hpend hall hlen hpos
    simp at hlen
    omega
  | cons w rest ih =>
    intro jq0 n g hstate hpend hall hlen hpos
    obtain ⟨hw1, hw2, hw3⟩ := hall w (by simp)
    obtain ⟨v, hv⟩ := Option.isSome_iff_exists.mp hstate
    have hv2 : keyFind jq0.state w.1 = some v := by rw [hw1]; exact hv
    have hk : (w.1, w.2.1) = (id, stage) := by rw [hw1, hw2]
    have hpend2 : keyFind jq0.pending (w.1, w.2.1) = some ⟨n, g⟩ := by
      rw [hk]; exact hpend
    have hproc := processMessage_ok_def jq0 w v n g hv2 hw3 hpend2
    rw [hk] at hproc
    cases rest with
    | nil =>
      have hn : n = 1 := by simpa using hlen.symm
      subst hn
      rw [if_pos (by omega)] at hproc
      refine ⟨_, _, processSeq_cons_ok_nil _ _ _ _ hproc, ?_, ?_, ?_, ?_⟩
      · simp [finishCount]
      · simp
      · simp [pendingInsert_self]
      · intro i hi
        have hz : i = 0 := by omega
        subst hz
        exact ⟨jq0, [], rfl, rfl⟩
    | cons r rs =>
      have hn2 : 2 ≤ n := by simp at hlen; omega
      rw [if_neg (by omega)] at hproc
      obtain ⟨final, evs, hseq, hcount, hmem, hfinal, hpref⟩ :=
        ih { jq0 with active := jq0.active - 1,
                      pending := pendingInsert jq0.pending (id, stage)
                        ⟨n - 1, g.combine w.2.2.1⟩ }
          (n - 1) (g.combine w.2.2.1) hstate (pendingInsert_self _ _ _)
          (fun m hm => hall m (by simp [hm])) (by simp at hlen ⊢; omega)
          (by omega)
      have hseq1 : processSeq jq0 (w :: r :: rs) = some (final, evs) := by
        have := processSeq_cons_ok_rest _ _ _ _ _ _ _ hproc hseq
        simpa using this
      refine ⟨final, evs, hseq1, hcount, ?_, ?_, ?_⟩
      · simpa using hmem
      · simpa using hfinal
      · intro i hi
        cases i with
        | zero => exact ⟨jq0, [], rfl, rfl⟩
        | succ j =>
          obtain ⟨mid, evsi, hs, hc⟩ := hpref j (by omega)
          refine ⟨mid, evsi, ?_, hc⟩
          have := processSeq_cons_ok_rest _ _ _ _ _ _ _ hproc hs
          simpa using this

/-- The number of completion messages a dispatched node produces: one per
job, or one synthetic message when there are no jobs. -/
theorem run_msgs_length (jq : JobQueueSt) (pkg : Package) (stage : TargetStage)
    (fresh : Freshness) (jobs : List (Job × Freshness)) :
    (JobQueue.run jq pkg stage fresh jobs).2.2.length =
      if jobs.length = 0 then 1 else jobs.length := by
  by_cases h : jobs.length = 0
  · simp [JobQueue.run, h, jobLoop_msgs]
  · simp [JobQueue.run, h, jobLoop_msgs]

/-- The coordinator state after run: the active count grows by the unit
count and the PendingBuild is inserted; queue, state, resolve unchanged. -/
theorem run_proj (jq : JobQueueSt) (pkg : Package) (stage : TargetStage)
    (fresh : Freshness) (jobs : List (Job × Freshness)) :
    (JobQueue.run jq pkg stage fresh jobs).1 =
      { jq with
          active := jq.active + (if jobs.length = 0 then 1 else jobs.length),
          pending := pendingInsert jq.pending (pkg.get_package_id, stage)
            ⟨if jobs.length = 0 then 1 else jobs.length, fresh⟩ } := rfl

/-- Every completion message of a dispatched node carries the package id and
stage of the node, and a success result when every job succeeds at its
effective freshness. -/
theorem run_msgs_elem (jq : JobQueueSt) (pkg : Package) (stage : TargetStage)
    (fresh : Freshness) (jobs : List (Job × Freshness))
    (hok : ∀ jf ∈ jobs, jf.1.runJob (jf.2.combine fresh) = Except.ok ()) :
    ∀ m ∈ (JobQueue.run jq pkg stage fresh jobs).2.2,
      m.1 = pkg.get_package_id ∧ m.2.1 = stage ∧ m.2.2.2 = Except.ok () := by
  intro m hm
  by_cases h : jobs.length = 0
  · have hjobs : jobs = [] := List.length_eq_zero.mp h
    subst hjobs
    simp [JobQueue.run, jobLoop] at hm
    subst hm
    exact ⟨rfl, rfl, rfl⟩
  · have hmsgs : (JobQueue.run jq pkg stage fresh jobs).2.2 =
        jobs.map (fun jf => (pkg.get_package_id, stage, jf.2.combine fresh,
          jf.1.runJob (jf.2.combine fresh))) := by
      simp [JobQueue.run, h, jobLoop_msgs]
    rw [hmsgs] at hm
    obtain ⟨jf, hjf, rfl⟩ := List.mem_map.mp hm
    exact ⟨rfl, rfl, hok jf hjf⟩

/-- The freshness values carried by a node's completion messages: the
effective freshness of each job, or the node's incoming freshness for the
synthetic zero-job message. -/
theorem run_msgs_fresh (jq : JobQueueSt) (pkg : Package) (stage : TargetStage)
    (fresh : Freshness) (jobs : List (Job × Freshness)) :
    (JobQueue.run jq pkg stage fresh jobs).2.2.map (fun m => m.2.2.1) =
      if jobs.length = 0 then [fresh]
      else jobs.map (fun jf => jf.2.combine fresh) := by
  by_cases h : jobs.length = 0
  · have hjobs : jobs = [] := List.length_eq_zero.mp h
    subst hjobs
    simp [JobQueue.run, jobLoop]
  · simp only [h, if_false, JobQueue.run, jobLoop_msgs]
    rw [List.map_map]
    rfl

/-- Processing a success message of a different key touches neither the
pending record of this key nor its finish count. -/
theorem processMessage_frame (k : StageKey) (jq2 jq3 : JobQueueSt)
    (m : Message) (evs2 : List Event)
    (hkey : (m.1, m.2.1) ≠ k)
    (h : processMessage jq2 m = ProcRes.okRes jq3 evs2) :
    keyFind jq3.pending k = keyFind jq2.pending k ∧ finishCount evs2 k = 0 := by
  have hne : k ≠ (m.1, m.2.1) := fun hh => hkey hh.symm
  unfold processMessage at h
  cases hst : keyFind jq2.state m.1 with
  | none => simp [hst] at h
  | some v =>
    simp only [hst] at h
    cases hres : m.2.2.2 with
    | error e => simp [hres] at h
    | ok u =>
      cases u
      simp only [hres] at h
      cases hpend : keyFind jq2.pending (m.1, m.2.1) with
      | none => simp [hpend] at h
      | some pb =>
        simp only [hpend] at h
        by_cases hz : pb.amt - 1 = 0
        · rw [if_pos hz] at h
          injection h with h1 h2
          subst h1
          subst h2
          refine ⟨pendingInsert_other _ _ _ _ hne, ?_⟩
          simp [finishCount, hkey]
        · rw [if_neg hz] at h
          injection h with h1 h2
          subst h1
          subst h2
          exact ⟨pendingInsert_other _ _ _ _ hne, rfl⟩

/-- C3: a dispatched node with N jobs (one synthetic unit when N = 0)
produces exactly that many completion messages; consuming them in any order
through the success path calls finish exactly once (never at a proper
prefix, that is, only after all of them are consumed), with the finish
freshness the combine of the node's incoming freshness and the effective
freshness carried by each of its completion messages; and success messages
of other keys neither change this key's pending record nor finish it. -/
theorem claim_c3_completions_before_finish (jq : JobQueueSt) (pkg : Package)
    (stage : TargetStage) (fresh : Freshness) (jobs : List (Job × Freshness))
    (ms : List Message)
    (hstate : (keyFind jq.state pkg.get_package_id).isSome = true)
    (hok : ∀ jf ∈ jobs, jf.1.runJob (jf.2.combine fresh) = Except.ok ())
    (hperm : ms.Perm (JobQueue.run jq pkg stage fresh jobs).2.2) :
    (JobQueue.run jq pkg stage fresh jobs).2.2.length =
      (if jobs.length = 0 then 1 else jobs.length) ∧
    ((JobQueue.run jq pkg stage fresh jobs).2.2.map (fun m => m.2.2.1) =
      if jobs.length = 0 then [fresh]
      else jobs.map (fun jf => jf.2.combine fresh)) ∧
    (∃ final evs,
      processSeq (JobQueue.run jq pkg stage fresh jobs).1 ms =
        some (final, evs) ∧
      finishCount evs (pkg.get_package_id, stage) = 1 ∧
      Event.finishNode (pkg.get_package_id, stage)
        (((JobQueue.run jq pkg stage fresh jobs).2.2.map
            (fun m => m.2.2.1)).foldl Freshness.combine fresh) ∈ evs ∧
      (∀ i < ms.length, ∃ mid evsi,
        processSeq (JobQueue.run jq pkg stage fresh jobs).1 (ms.take i) =
          some (mid, evsi) ∧
        finishCount evsi (pkg.get_package_id, stage) = 0)) ∧
    (∀ (jq2 jq3 : JobQueueSt) (m : Message) (evs2 : List Event),
        (m.1, m.2.1) ≠ (pkg.get_package_id, stage) →
        processMessage jq2 m = ProcRes.okRes jq3 evs2 →
        keyFind jq3.pending (pkg.get_package_id, stage) =
          keyFind jq2.pending (pkg.get_package_id, stage) ∧
        finishCount evs2 (pkg.get_package_id, stage) = 0) := by
  refine ⟨run_msgs_length jq pkg stage fresh jobs,
          run_msgs_fresh jq pkg stage fresh jobs, ?_,
          fun jq2 jq3 m evs2 hkey h =>
            processMessage_frame (pkg.get_package_id, stage) jq2 jq3 m evs2
              hkey h⟩
  have hN : 1 ≤ if jobs.length = 0 then 1 else jobs.length := by
    by_cases h : jobs.length = 0 <;> simp [h] <;> try omega
  have hlen : ms.length = if jobs.length = 0 then 1 else jobs.length := by
    rw [hperm.length_eq, run_msgs_length]
  have hpend : keyFind (JobQueue.run jq pkg stage fresh jobs).1.pending
      (pkg.get_package_id, stage) =
      some ⟨if jobs.length = 0 then 1 else jobs.length, fresh⟩ := by
    rw [run_proj]
    exact pendingInsert_self _ _ _
  have hstate2 : (keyFind (JobQueue.run jq pkg stage fresh jobs).1.state
      pkg.get_package_id).isSome = true := hstate
  have hall : ∀ m ∈ ms, m.1 = pkg.get_package_id ∧ m.2.1 = stage ∧
      m.2.2.2 = Except.ok () := by
    intro m hm
    exact run_msgs_elem jq pkg stage fresh jobs hok m (hperm.subset hm)
  obtain ⟨final, evs, hseq, hcount, hmem, _hfinal, hpref⟩ :=
    processSeq_node pkg.get_package_id stage ms
      (JobQueue.run jq pkg stage fresh jobs).1
      (if jobs.length = 0 then 1 else jobs.length) fresh
      hstate2 hpend hall hlen hN
  have hfold : (ms.map (fun m => m.2.2.1)).foldl Freshness.combine fresh =
      (((JobQueue.run jq pkg stage fresh jobs).2.2.map
          (fun m => m.2.2.1)).foldl Freshness.combine fresh) :=
    foldl_combine_perm (hperm.map (fun m => m.2.2.1)) fresh
  rw [hfold] at hmem
  refine ⟨final, evs, hseq, hcount, hmem, ?_⟩
  intro i hi
  exact hpref i (by rw [hlen] at hi; exact hi)

/-- C3 witness: the zero-job node at stage StageEnd of the concrete package,
whose single synthetic completion message finishes it. -/
theorem claim_c3_completions_before_finish_witness :
    (JobQueue.run c1Jq c1Pkg TargetStage.StageEnd Freshness.Fresh []).2.2.length =
      (if ([] : List (Job × Freshness)).length = 0 then 1
       else ([] : List (Job × Freshness)).length) ∧
    ((JobQueue.run c1Jq c1Pkg TargetStage.StageEnd Freshness.Fresh
        []).2.2.map (fun m => m.2.2.1) =
      if ([] : List (Job × Freshness)).length = 0 then [Freshness.Fresh]
      else ([] : List (Job × Freshness)).map
        (fun jf => jf.2.combine Freshness.Fresh)) ∧
    (∃ final evs,
      processSeq (JobQueue.run c1Jq c1Pkg TargetStage.StageEnd
          Freshness.Fresh []).1
        ((JobQueue.run c1Jq c1Pkg TargetStage.StageEnd Freshness.Fresh
          []).2.2) = some (final, evs) ∧
      finishCount evs (c1Pkg.get_package_id, TargetStage.StageEnd) = 1 ∧
      Event.finishNode (c1Pkg.get_package_id, TargetStage.StageEnd)
        (((JobQueue.run c1Jq c1Pkg TargetStage.StageEnd Freshness.Fresh
            []).2.2.map (fun m => m.2.2.1)).foldl Freshness.combine
          Freshness.Fresh) ∈ evs ∧
      (∀ i < ((JobQueue.run c1Jq c1Pkg TargetStage.StageEnd Freshness.Fresh
          []).2.2).length, ∃ mid evsi,
        processSeq (JobQueue.run c1Jq c1Pkg TargetStage.StageEnd
            Freshness.Fresh []).1
          (((JobQueue.run c1Jq c1Pkg TargetStage.StageEnd Freshness.Fresh
            []).2.2).take i) = some (mid, evsi) ∧
        finishCount evsi (c1Pkg.get_package_id, TargetStage.StageEnd) = 0)) ∧
    (∀ (jq2 jq3 : JobQueueSt) (m : Message) (evs2 : List Event),
        (m.1, m.2.1) ≠ (c1Pkg.get_package_id, TargetStage.StageEnd) →
        processMessage jq2 m = ProcRes.okRes jq3 evs2 →
        keyFind jq3.pending (c1Pkg.get_package_id, TargetStage.StageEnd) =
          keyFind jq2.pending (c1Pkg.get_package_id, TargetStage.StageEnd) ∧
        finishCount evs2 (c1Pkg.get_package_id, TargetStage.StageEnd) = 0) :=
  claim_c3_completions_before_finish c1Jq c1Pkg TargetStage.StageEnd
    Freshness.Fresh [] _ (by decide) (by simp) (List.Perm.refl _)

/-- Number of in-flight messages belonging to one node key. -/
def msgKeyCount (inflight : List Message) (k : StageKey) : Nat :=
  inflight.countP (fun m => (m.1, m.2.1) = k)

/-- Picking a message shortens the multiset by one. -/
theorem pickMessage_length (l : List Message) (i : Nat) (m : Message)
    (l2 : List Message) (h : pickMessage l i = some (m, l2)) :
    l.length = l2.length + 1 := by
  induction l generalizing i l2 with
  | nil => simp [pickMessage] at h
  | cons a rest ih =>
    cases i with
    | zero =>
      simp [pickMessage] at h
      obtain ⟨h1, h2⟩ := h
      subst h2
      simp
    | succ n =>
      simp only [pickMessage] at h
      cases hp : pickMessage rest n with
      | none => rw [hp] at h; simp at h
      | some pr =>
        rw [hp] at h
        obtain ⟨m2, rest2⟩ := pr
        simp at h
        obtain ⟨h1, h2⟩ := h
        subst h1
        subst h2
        simp [ih n rest2 hp]

/-- A picked message was in the multiset. -/
theorem pickMessage_mem (l : List Message) (i : Nat) (m : Message)
    (l2 : List Message) (h : pickMessage l i = some (m, l2)) : m ∈ l := by
  induction l generalizing i l2 with
  | nil => simp [pickMessage] at h
  | cons a rest ih =>
    cases i with
    | zero =>
      simp [pickMessage] at h
      simp [h.1]
    | succ n =>
      simp only [pickMessage] at h
      cases hp : pickMessage rest n with
      | none => rw [hp] at h; simp at h
      | some pr =>
        rw [hp] at h
        obtain ⟨m2, rest2⟩ := pr
        simp at h
        obtain ⟨h1, h2⟩ := h
        subst h1
        exact List.mem_cons_of_mem a (ih n rest2 hp)

/-- Remaining messages after a pick were in the multiset. -/
theorem pickMessage_subset (l : List Message) (i : Nat) (m : Message)
    (l2 : List Message) (h : pickMessage l i = some (m, l2)) :
    ∀ x ∈ l2, x ∈ l := by
  induction l generalizing i l2 with
  | nil => simp [pickMessage] at h
  | cons a rest ih =>
    cases i with
    | zero =>
      simp [pickMessage] at h
      intro x hx
      rw [← h.2] at hx
      exact List.mem_cons_of_mem a hx
    | succ n =>
      simp only [pickMessage] at h
      cases hp : pickMessage rest n with
      | none => rw [hp] at h; simp at h
      | some pr =>
        rw [hp] at h
        obtain ⟨m2, rest2⟩ := pr
        simp at h
        obtain ⟨h1, h2⟩ := h
        subst h1
        subst h2
        intro x hx
        cases List.mem_cons.mp hx with
        | inl hx1 => simp [hx1]
        | inr hx2 => exact List.mem_cons_of_mem a (ih n rest2 hp x hx2)

/-- Picking a message removes exactly one from its key's count and leaves
other keys' counts unchanged. -/
theorem pickMessage_count (l : List Message) (i : Nat) (m : Message)
    (l2 : List Message) (h : pickMessage l i = some (m, l2)) :
    ∀ k, msgKeyCount l k =
      msgKeyCount l2 k + (if (m.1, m.2.1) = k then 1 else 0) := by
  induction l generalizing i l2 with
  | nil => simp [pickMessage] at h
  | cons a rest ih =>
    cases i with
    | zero =>
      simp [pickMessage] at h
      obtain ⟨h1, h2⟩ := h
      subst h2
      intro k
      by_cases hk : (m.1, m.2.1) = k <;>
        simp [msgKeyCount, List.countP_cons, h1, hk, Nat.add_comm]
    | succ n =>
      simp only [pickMessage] at h
      cases hp : pickMessage rest n with
      | none => rw [hp] at h; simp at h
      | some pr =>
        rw [hp] at h
        obtain ⟨m2, rest2⟩ := pr
        simp at h
        obtain ⟨h1, h2⟩ := h
        subst h1
        subst h2
        intro k
        have := ih n rest2 hp k
        simp [msgKeyCount, List.countP_cons] at this ⊢
        omega

/-- The failure drain returns exactly as many messages as requested. -/
theorem drainMessages_length (n : Nat) :
    ∀ (inflight : List Message) (sched : List Nat) (ms l3 : List Message)
      (s3 : List Nat),
      drainMessages n inflight sched = some (ms, l3, s3) → ms.length = n := by
  induction n with
  | zero =>
    intro inflight sched ms l3 s3 h
    simp [drainMessages] at h
    simp [h.1]
  | succ n2 ih =>
    intro inflight sched ms l3 s3 h
    cases sched with
    | nil => simp [drainMessages] at h
    | cons i rest =>
      simp only [drainMessages] at h
      cases hp : pickMessage inflight i with
      | none => simp only [hp] at h; simp at h
      | some pr =>
        obtain ⟨m, inflight2⟩ := pr
        simp only [hp] at h
        cases hd : drainMessages n2 inflight2 rest with
        | none => simp only [hd] at h; simp at h
        | some dr =>
          obtain ⟨ms2, l4, s4⟩ := dr
          simp only [hd] at h
          simp at h
          obtain ⟨h1, _⟩ := h
          subst h1
          simp [ih inflight2 rest ms2 l4 s4 hd]

/-- Characterization of a successful dequeue: the returned node is one of
the entries, its key had not been dequeued before, and the queue is the same
except that the key is now marked dequeued. -/
theorem dequeue_some_spec (q : DependencyQueue) (ctx : Resolve)
    (fresh : Freshness) (k : StageKey) (pkg : Package)
    (jobs : List (Job × Freshness)) (q2 : DependencyQueue)
    (h : q.dequeue ctx = (some (fresh, k, pkg, jobs), q2)) :
    (∃ f0, (k, f0, pkg, jobs) ∈ q.entries) ∧
    k ∉ q.dequeuedKeys ∧
    q2.entries = q.entries ∧ q2.finishedNodes = q.finishedNodes ∧
    q2.dequeuedKeys = q.dequeuedKeys ++ [k] := by
  unfold DependencyQueue.dequeue at h
  cases hf : q.entries.find? (fun e => q.isReady ctx e.1) with
  | none => simp only [hf] at h; simp at h
  | some e =>
    obtain ⟨k0, f0, pkg0, jobs0⟩ := e
    simp only [hf] at h
    have hmem := List.mem_of_find?_eq_some hf
    have hpred := List.find?_some hf
    simp [Prod.ext_iff] at h
    obtain ⟨⟨_hfr, hk, hp, hj⟩, hq2⟩ := h
    subst hp
    subst hj
    subst hq2
    have hk2 : k0 = k := Prod.ext_iff.mpr hk
    subst hk2
    refine ⟨⟨f0, hmem⟩, ?_, rfl, rfl, rfl⟩
    unfold DependencyQueue.isReady at hpred
    have hc := (Bool.and_eq_true _ _).mp hpred
    have hcf : q.dequeuedKeys.contains k0 = false := by
      cases hcc : q.dequeuedKeys.contains k0
      · rfl
      · rw [hcc] at hc
        simp at hc
    simpa using hcf

/-- Every completion message of a dispatched node carries the node's package
id and stage. -/
theorem run_msgs_key (jq : JobQueueSt) (pkg : Package) (stage : TargetStage)
    (fresh : Freshness) (jobs : List (Job × Freshness)) :
    ∀ m ∈ (JobQueue.run jq pkg stage fresh jobs).2.2,
      m.1 = pkg.get_package_id ∧ m.2.1 = stage := by
  intro m hm
  by_cases h : jobs.length = 0
  · have hjobs : jobs = [] := List.length_eq_zero.mp h
    subst hjobs
    simp [JobQueue.run, jobLoop] at hm
    subst hm
    exact ⟨rfl, rfl⟩
  · have hmsgs : (JobQueue.run jq pkg stage fresh jobs).2.2 =
        jobs.map (fun jf => (pkg.get_package_id, stage, jf.2.combine fresh,
          jf.1.runJob (jf.2.combine fresh))) := by
      simp [JobQueue.run, h, jobLoop_msgs]
    rw [hmsgs] at hm
    obtain ⟨jf, hjf, rfl⟩ := List.mem_map.mp hm
    exact ⟨rfl, rfl⟩

/-- Counting splits over append. -/
theorem msgKeyCount_append (l1 l2 : List Message) (k : StageKey) :
    msgKeyCount (l1 ++ l2) k = msgKeyCount l1 k + msgKeyCount l2 k :=
  List.countP_append _ _ _

/-- A list whose messages all have key k counts as its length. -/
theorem msgKeyCount_all (l : List Message) (k : StageKey)
    (h : ∀ m ∈ l, (m.1, m.2.1) = k) : msgKeyCount l k = l.length := by
  induction l with
  | nil => rfl
  | cons a rest ih =>
    have ha := h a (by simp)
    have ht := ih (fun m hm => h m (by simp [hm]))
    unfold msgKeyCount at ht ⊢
    rw [List.countP_cons, ht]
    simp [ha]

/-- A list whose messages all have key k counts zero at any other key. -/
theorem msgKeyCount_zero (l : List Message) (k k2 : StageKey) (hne : k2 ≠ k)
    (h : ∀ m ∈ l, (m.1, m.2.1) = k) : msgKeyCount l k2 = 0 := by
  induction l with
  | nil => rfl
  | cons a rest ih =>
    have ha := h a (by simp)
    have ht := ih (fun m hm => h m (by simp [hm]))
    unfold msgKeyCount at ht ⊢
    rw [List.countP_cons, ht]
    have hnot : ¬ ((a.1, a.2.1) = k2) := by
      rw [ha]
      exact fun hh => hne hh.symm
    simp [hnot]

/-- The coordinator-loop invariant tying the scheduler state to the
in-flight message multiset: the active counter counts in-flight messages,
every in-flight package id and every entry's payload package id is a key of
the state map (and matches the entry key), per-key in-flight counts equal
the pending counts, and the pending table's keys are exactly the dequeued
keys. -/
structure LoopInv (jq : JobQueueSt) (inflight : List Message) : Prop where
  hactive : jq.active = inflight.length
  hmsgState : ∀ m ∈ inflight, (keyFind jq.state m.1).isSome = true
  hentries : ∀ e ∈ jq.queue.entries, e.2.2.1.get_package_id = e.1.1 ∧
    (keyFind jq.state e.1.1).isSome = true
  hcount : ∀ k, msgKeyCount inflight k =
    ((keyFind jq.pending k).map (fun pb => pb.amt)).getD 0
  hpendDeq : ∀ k, (keyFind jq.pending k).isSome = true →
    k ∈ jq.queue.dequeuedKeys
  hdeqPend : ∀ k, k ∈ jq.queue.dequeuedKeys →
    (keyFind jq.pending k).isSome = true

/-- Dispatching one dequeued node preserves the loop invariant, with the
node's messages joining the in-flight multiset. -/
theorem LoopInv_run_step (jq : JobQueueSt) (inflight : List Message)
    (fresh : Freshness) (k : StageKey) (pkg : Package)
    (jobs : List (Job × Freshness)) (q2 : DependencyQueue)
    (hinv : LoopInv jq inflight)
    (hdq : jq.queue.dequeue jq.resolve = (some (fresh, k, pkg, jobs), q2)) :
    LoopInv (JobQueue.run { jq with queue := q2 } pkg k.2 fresh jobs).1
      (inflight ++
        (JobQueue.run { jq with queue := q2 } pkg k.2 fresh jobs).2.2) := by
  obtain ⟨⟨f0, hmem⟩, hndq, hent, _hfin, hdeq⟩ :=
    dequeue_some_spec _ _ _ _ _ _ _ hdq
  obtain ⟨hid, hst⟩ := hinv.hentries (k, f0, pkg, jobs) hmem
  have hkk : (pkg.get_package_id, k.2) = k := by
    rw [hid]
  have hlen := run_msgs_length { jq with queue := q2 } pkg k.2 fresh jobs
  have hkeys := run_msgs_key { jq with queue := q2 } pkg k.2 fresh jobs
  have hallk : ∀ m ∈ (JobQueue.run { jq with queue := q2 } pkg k.2 fresh
      jobs).2.2, (m.1, m.2.1) = k := by
    intro m hm
    obtain ⟨h1, h2⟩ := hkeys m hm
    rw [h1, h2]
    exact hkk
  have hpnone : keyFind jq.pending k = none := by
    cases hpd : keyFind jq.pending k with
    | none => rfl
    | some pb => exact absurd (hinv.hpendDeq k (by simp [hpd])) hndq
  refine ⟨?_, ?_, ?_, ?_, ?_, ?_⟩
  · show jq.active + (if jobs.length = 0 then 1 else jobs.length) =
      (inflight ++ (JobQueue.run { jq with queue := q2 } pkg k.2 fresh
        jobs).2.2).length
    rw [List.length_append, hlen, hinv.hactive]
  · intro m hm
    show (keyFind jq.state m.1).isSome = true
    rcases List.mem_append.mp hm with hm1 | hm2
    · exact hinv.hmsgState m hm1
    · obtain ⟨hm1, _⟩ := hkeys m hm2
      rw [hm1, hid]
      exact hst
  · intro e he
    show e.2.2.1.get_package_id = e.1.1 ∧
      (keyFind jq.state e.1.1).isSome = true
    have he2 : e ∈ q2.entries := he
    rw [hent] at he2
    exact hinv.hentries e he2
  · intro k2
    show msgKeyCount (inflight ++ (JobQueue.run { jq with queue := q2 } pkg
        k.2 fresh jobs).2.2) k2 =
      ((keyFind (pendingInsert jq.pending (pkg.get_package_id, k.2)
        ⟨if jobs.length = 0 then 1 else jobs.length, fresh⟩) k2).map
          (fun pb => pb.amt)).getD 0
    rw [msgKeyCount_append, hkk]
    by_cases hk2 : k2 = k
    · subst hk2
      have h0 : msgKeyCount inflight k2 = 0 := by
        have := hinv.hcount k2
        rw [hpnone] at this
        simpa using this
      rw [h0, msgKeyCount_all _ _ hallk, hlen, pendingInsert_self]
      simp
    · have hz : msgKeyCount (JobQueue.run { jq with queue := q2 } pkg k.2
          fresh jobs).2.2 k2 = 0 := msgKeyCount_zero _ _ _ hk2 hallk
      rw [hz, pendingInsert_other _ _ _ _ hk2]
      have := hinv.hcount k2
      omega
  · intro k2 hk2s
    show k2 ∈ q2.dequeuedKeys
    rw [hdeq]
    have hk2s2 : (keyFind (pendingInsert jq.pending (pkg.get_package_id, k.2)
        ⟨if jobs.length = 0 then 1 else jobs.length, fresh⟩) k2).isSome =
        true := hk2s
    rw [hkk] at hk2s2
    by_cases hk2 : k2 = k
    · subst hk2
      simp
    · rw [pendingInsert_other _ _ _ _ hk2] at hk2s2
      exact List.mem_append_left _ (hinv.hpendDeq k2 hk2s2)
  · intro k2 hk2m
    show (keyFind (pendingInsert jq.pending (pkg.get_package_id, k.2)
        ⟨if jobs.length = 0 then 1 else jobs.length, fresh⟩) k2).isSome = true
    rw [hkk]
    have hk2m2 : k2 ∈ q2.dequeuedKeys := hk2m
    rw [hdeq] at hk2m2
    by_cases hk2 : k2 = k
    · subst hk2
      rw [pendingInsert_self]
      rfl
    · rw [pendingInsert_other _ _ _ _ hk2]
      rcases List.mem_append.mp hk2m2 with hm1 | hm2
      · exact hinv.hdeqPend k2 hm1
      · simp at hm2
        exact absurd hm2 hk2

/-- Draining all ready nodes preserves the loop invariant. -/
theorem LoopInv_dispatchAll (fuel : Nat) :
    ∀ (jq : JobQueueSt) (inflight : List Message),
      LoopInv jq inflight →
      LoopInv (dispatchAll fuel jq).1
        (inflight ++ (dispatchAll fuel jq).2.2) := by
  induction fuel with
  | zero =>
    intro jq inflight h
    simpa [dispatchAll] using h
  | succ f ih =>
    intro jq inflight h
    cases hdq : jq.queue.dequeue jq.resolve with
    | mk o q2 =>
      cases o with
      | none =>
        simp only [dispatchAll, hdq]
        simpa using h
      | some t =>
        obtain ⟨fresh, k, pkg, jobs⟩ := t
        simp only [dispatchAll, hdq]
        have h1 := LoopInv_run_step jq inflight fresh k pkg jobs q2 h hdq
        have h2 := ih _ _ h1
        simpa [List.append_assoc] using h2

/-- Core of the invariant preservation for the success path of message
processing, parameterized over the (possibly finish-updated) queue. -/
theorem LoopInv_process_core (jq : JobQueueSt) (inflight l2 : List Message)
    (m : Message) (i : Nat) (pb : PendingBuild) (q2 : DependencyQueue)
    (hinv : LoopInv jq inflight)
    (hpick : pickMessage inflight i = some (m, l2))
    (hpd : keyFind jq.pending (m.1, m.2.1) = some pb)
    (hent : ∀ e ∈ q2.entries, e ∈ jq.queue.entries)
    (hdeq : q2.dequeuedKeys = jq.queue.dequeuedKeys) :
    LoopInv { jq with active := jq.active - 1,
                      pending := pendingInsert jq.pending (m.1, m.2.1)
                        ⟨pb.amt - 1, pb.fresh.combine m.2.2.1⟩,
                      queue := q2 } l2 := by
  have hmem := pickMessage_mem _ _ _ _ hpick
  have hlen := pickMessage_length _ _ _ _ hpick
  have hcnt := pickMessage_count _ _ _ _ hpick
  refine ⟨?_, ?_, ?_, ?_, ?_, ?_⟩
  · show jq.active - 1 = l2.length
    have := hinv.hactive
    omega
  · intro m2 hm2
    exact hinv.hmsgState m2 (pickMessage_subset _ _ _ _ hpick m2 hm2)
  · intro e he
    exact hinv.hentries e (hent e he)
  · intro k2
    show msgKeyCount l2 k2 =
      ((keyFind (pendingInsert jq.pending (m.1, m.2.1)
        ⟨pb.amt - 1, pb.fresh.combine m.2.2.1⟩) k2).map
          (fun pb2 => pb2.amt)).getD 0
    by_cases hk2 : k2 = (m.1, m.2.1)
    · subst hk2
      rw [pendingInsert_self]
      have hcinv := hinv.hcount (m.1, m.2.1)
      rw [hpd] at hcinv
      simp at hcinv ⊢
      have hc2 := hcnt (m.1, m.2.1)
      simp at hc2
      omega
    · rw [pendingInsert_other _ _ _ _ hk2]
      have hc2 := hcnt k2
      rw [if_neg (fun hh => hk2 hh.symm), Nat.add_zero] at hc2
      rw [← hc2]
      exact hinv.hcount k2
  · intro k2 hs
    show k2 ∈ q2.dequeuedKeys
    rw [hdeq]
    by_cases hk2 : k2 = (m.1, m.2.1)
    · subst hk2
      exact hinv.hpendDeq (m.1, m.2.1) (by simp [hpd])
    · have hs2 : (keyFind (pendingInsert jq.pending (m.1, m.2.1)
          ⟨pb.amt - 1, pb.fresh.combine m.2.2.1⟩) k2).isSome = true := hs
      rw [pendingInsert_other _ _ _ _ hk2] at hs2
      exact hinv.hpendDeq k2 hs2
  · intro k2 hd2
    have hd3 : k2 ∈ jq.queue.dequeuedKeys := by rw [← hdeq]; exact hd2
    show (keyFind (pendingInsert jq.pending (m.1, m.2.1)
        ⟨pb.amt - 1, pb.fresh.combine m.2.2.1⟩) k2).isSome = true
    by_cases hk2 : k2 = (m.1, m.2.1)
    · subst hk2
      rw [pendingInsert_self]
      rfl
    · rw [pendingInsert_other _ _ _ _ hk2]
      exact hinv.hdeqPend k2 hd3

/-- Processing a success message preserves the loop invariant against the
shrunken in-flight multiset. -/
theorem LoopInv_process_ok (jq jq2 : JobQueueSt) (inflight l2 : List Message)
    (m : Message) (i : Nat) (evs : List Event)
    (hinv : LoopInv jq inflight)
    (hpick : pickMessage inflight i = some (m, l2))
    (hproc : processMessage jq m = ProcRes.okRes jq2 evs) :
    LoopInv jq2 l2 := by
  unfold processMessage at hproc
  cases hst : keyFind jq.state m.1 with
  | none => simp [hst] at hproc
  | some v =>
    simp only [hst] at hproc
    cases hres : m.2.2.2 with
    | error e => simp [hres] at hproc
    | ok u =>
      cases u
      simp only [hres] at hproc
      cases hpd : keyFind jq.pending (m.1, m.2.1) with
      | none => simp [hpd] at hproc
      | some pb =>
        simp only [hpd] at hproc
        by_cases hz : pb.amt - 1 = 0
        · rw [if_pos hz] at hproc
          injection hproc with h1 h2
          subst h1
          exact LoopInv_process_core jq inflight l2 m i pb
            (jq.queue.finish (m.1, m.2.1) (pb.fresh.combine m.2.2.1))
            hinv hpick hpd
            (fun e he => (List.mem_filter.mp he).1) rfl
        · rw [if_neg hz] at hproc
          injection hproc with h1 h2
          subst h1
          exact LoopInv_process_core jq inflight l2 m i pb jq.queue
            hinv hpick hpd (fun e he => he) rfl

/-- Under the loop invariant, processing a received message never fails at
its lookups. -/
theorem processMessage_no_lookupFailure (jq : JobQueueSt)
    (inflight l2 : List Message) (m : Message) (i : Nat)
    (hinv : LoopInv jq inflight)
    (hpick : pickMessage inflight i = some (m, l2)) :
    processMessage jq m ≠ ProcRes.lookupFailure := by
  have hmem := pickMessage_mem _ _ _ _ hpick
  have hst := hinv.hmsgState m hmem
  obtain ⟨v, hv⟩ := Option.isSome_iff_exists.mp hst
  unfold processMessage
  cases hres : m.2.2.2 with
  | error e => simp [hv, hres]
  | ok u =>
    cases u
    have hge : 0 < msgKeyCount inflight (m.1, m.2.1) :=
      List.countP_pos_iff.mpr ⟨m, hmem, by simp⟩
    have hcnt := hinv.hcount (m.1, m.2.1)
    cases hpd : keyFind jq.pending (m.1, m.2.1) with
    | none =>
      rw [hpd] at hcnt
      simp at hcnt
      omega
    | some pb =>
      simp only [hv, hres, hpd]
      by_cases hz : pb.amt - 1 = 0 <;> simp [hz]

/-- Inversion of one iteration of the scheduling loop: either the queue was
empty and the loop returned success, or a message was picked per the
schedule after the dispatch drain and the iteration took the success,
failure, or failed-lookup path. -/
theorem executeAux_succ_inv (fuel : Nat) (jq : JobQueueSt)
    (inflight : List Message) (sched : List Nat)
    (out : ExecRes × JobQueueSt × List Event)
    (h : executeAux (fuel + 1) jq inflight sched = some out) :
    (jq.queue.len = 0 ∧ out = (ExecRes.success, jq, [])) ∨
    (jq.queue.len ≠ 0 ∧ ∃ i sched2 m inflight2,
      sched = i :: sched2 ∧
      pickMessage (inflight ++
        (dispatchAll (jq.queue.entries.length + 1) jq).2.2) i =
        some (m, inflight2) ∧
      ((∃ jq2 pevs r2 final tr,
          processMessage (dispatchAll (jq.queue.entries.length + 1) jq).1 m =
            ProcRes.okRes jq2 pevs ∧
          executeAux fuel jq2 inflight2 sched2 = some (r2, final, tr) ∧
          out = (r2, final,
            (dispatchAll (jq.queue.entries.length + 1) jq).2.1 ++
              Event.recvMsg m :: pevs ++ tr)) ∨
       (∃ e jq2,
          processMessage (dispatchAll (jq.queue.entries.length + 1) jq).1 m =
            ProcRes.failRes e jq2 ∧
          ((0 < jq2.active ∧ ∃ ms l3 s3,
              drainMessages jq2.active inflight2 sched2 = some (ms, l3, s3) ∧
              out = (ExecRes.failure e, jq2,
                (dispatchAll (jq.queue.entries.length + 1) jq).2.1 ++
                  Event.recvMsg m :: Event.drainNotice ::
                    ms.map Event.recvMsg)) ∨
           (jq2.active = 0 ∧ out = (ExecRes.failure e, jq2,
              (dispatchAll (jq.queue.entries.length + 1) jq).2.1 ++
                [Event.recvMsg m])))) ∨
       (processMessage (dispatchAll (jq.queue.entries.length + 1) jq).1 m =
          ProcRes.lookupFailure ∧
        out = (ExecRes.lookupFailure,
          (dispatchAll (jq.queue.entries.length + 1) jq).1,
          (dispatchAll (jq.queue.entries.length + 1) jq).2.1 ++
            [Event.recvMsg m])))) := by
  by_cases hlen : jq.queue.len = 0
  · left
    refine ⟨hlen, ?_⟩
    simp only [executeAux, hlen, if_true, ite_true] at h
    exact (Option.some.inj h).symm
  · right
    refine ⟨hlen, ?_⟩
    simp only [executeAux, hlen, if_false, ite_false] at h
    cases sched with
    | nil => simp at h
    | cons i sched2 =>
      refine ⟨i, sched2, ?_⟩
      cases hpick : pickMessage (inflight ++
          (dispatchAll (jq.queue.entries.length + 1) jq).2.2) i with
      | none =>
        simp only [hpick] at h
        exact Option.noConfusion h
      | some pr =>
        obtain ⟨m, inflight2⟩ := pr
        simp only [hpick] at h
        refine ⟨m, inflight2, rfl, rfl, ?_⟩
        cases hproc : processMessage
            (dispatchAll (jq.queue.entries.length + 1) jq).1 m with
        | okRes jq2 pevs =>
          simp only [hproc] at h
          cases hrec : executeAux fuel jq2 inflight2 sched2 with
          | none =>
            simp only [hrec] at h
            exact Option.noConfusion h
          | some rft =>
            obtain ⟨r2, final, tr⟩ := rft
            simp only [hrec] at h
            exact Or.inl ⟨jq2, pevs, r2, final, tr, rfl, hrec,
              (Option.some.inj h).symm⟩
        | failRes e jq2 =>
          simp only [hproc] at h
          by_cases hact : 0 < jq2.active
          · rw [if_pos hact] at h
            cases hdr : drainMessages jq2.active inflight2 sched2 with
            | none =>
              simp only [hdr] at h
              exact Option.noConfusion h
            | some dst =>
              obtain ⟨ms, l3, s3⟩ := dst
              simp only [hdr] at h
              exact Or.inr (Or.inl ⟨e, jq2, rfl, Or.inl ⟨hact, ms, l3, s3,
                hdr, (Option.some.inj h).symm⟩⟩)
          · rw [if_neg hact] at h
            exact Or.inr (Or.inl ⟨e, jq2, rfl, Or.inr ⟨by omega,
              (Option.some.inj h).symm⟩⟩)
        | lookupFailure =>
          simp only [hproc] at h
          exact Or.inr (Or.inr ⟨rfl, (Option.some.inj h).symm⟩)

/-- Updating the package state keeps every present key present. -/
theorem stateFindOrInsertCombine_isSome (s : List (PackageId × Freshness))
    (id p : PackageId) (f : Freshness)
    (h : (keyFind s p).isSome = true) :
    (keyFind (stateFindOrInsertCombine s id f) p).isSome = true := by
  by_cases hp : p = id
  · subst hp
    rw [stateFindOrInsertCombine_self]
    rfl
  · rw [stateFindOrInsertCombine_other s id p f hp]
    exact h

/-- The updated key is present in the package state. -/
theorem stateFindOrInsertCombine_isSome_self
    (s : List (PackageId × Freshness)) (id : PackageId) (f : Freshness) :
    (keyFind (stateFindOrInsertCombine s id f) id).isSome = true := by
  rw [stateFindOrInsertCombine_self]
  rfl

/-- Members of the queue entries after an insert: either an old entry or an
entry at the inserted key carrying the inserted payload. -/
theorem entriesInsert_mem
    (l : List (StageKey × Freshness × Package × List (Job × Freshness)))
    (f : Freshness) (k : StageKey) (pkg : Package)
    (jobs : List (Job × Freshness)) :
    ∀ e ∈ entriesInsert l f k pkg jobs,
      e ∈ l ∨ (e.1 = k ∧ e.2.2.1 = pkg) := by
  induction l with
  | nil =>
    intro e he
    simp [entriesInsert] at he
    subst he
    exact Or.inr ⟨rfl, rfl⟩
  | cons hd tl ih =>
    obtain ⟨k0, f0, pkg0, jobs0⟩ := hd
    intro e he
    by_cases h : k0 = k
    · subst h
      simp [entriesInsert] at he
      rcases he with he1 | he2
      · subst he1
        exact Or.inr ⟨rfl, rfl⟩
      · exact Or.inl (by simp [he2])
    · simp [entriesInsert, h] at he
      rcases he with he1 | he2
      · exact Or.inl (by simp [he1])
      · rcases ih e he2 with h1 | h2
        · exact Or.inl (by simp [h1])
        · exact Or.inr h2

/-- A sequence of enqueue calls changes only the entries and the state: the
active counter, the pending table, the finished and dequeued key sets stay
as in the starting scheduler. -/
theorem enqueueAll_proj (calls : List EnqueueCall) :
    ∀ jq : JobQueueSt,
      (enqueueAll jq calls).active = jq.active ∧
      (enqueueAll jq calls).pending = jq.pending ∧
      (enqueueAll jq calls).queue.dequeuedKeys = jq.queue.dequeuedKeys ∧
      (enqueueAll jq calls).queue.finishedNodes = jq.queue.finishedNodes := by
  induction calls with
  | nil => intro jq; exact ⟨rfl, rfl, rfl, rfl⟩
  | cons c cs ih =>
    intro jq
    exact ih (JobQueue.enqueue jq c.pkg c.stage c.jobs)

/-- After any sequence of enqueue calls every entry's payload package id
matches its key and is present in the state map. -/
theorem enqueueAll_entries (calls : List EnqueueCall) :
    ∀ jq : JobQueueSt,
      (∀ e ∈ jq.queue.entries, e.2.2.1.get_package_id = e.1.1 ∧
        (keyFind jq.state e.1.1).isSome = true) →
      ∀ e ∈ (enqueueAll jq calls).queue.entries,
        e.2.2.1.get_package_id = e.1.1 ∧
        (keyFind (enqueueAll jq calls).state e.1.1).isSome = true := by
  induction calls with
  | nil => intro jq h; exact h
  | cons c cs ih =>
    intro jq h
    refine ih (JobQueue.enqueue jq c.pkg c.stage c.jobs) ?_
    intro e he
    have he2 : e ∈ entriesInsert jq.queue.entries Freshness.Fresh
        (c.pkg.get_package_id, c.stage) c.pkg c.jobs := he
    rcases entriesInsert_mem _ _ _ _ _ e he2 with h1 | ⟨h2, h3⟩
    · obtain ⟨ha, hb⟩ := h e h1
      exact ⟨ha, stateFindOrInsertCombine_isSome _ _ _ _ hb⟩
    · constructor
      · rw [h3, h2]
      · rw [h2]
        exact stateFindOrInsertCombine_isSome_self _ _ _

/-- The loop invariant holds at the start of execute: no active work, no
in-flight messages, empty pending table, nothing dequeued, and every
registered node's package id is a key of the state map. -/
theorem LoopInv_initial (resolve : Resolve) (calls : List EnqueueCall) :
    LoopInv (enqueueAll (JobQueue.new resolve) calls) [] := by
  obtain ⟨hact, hpend, hdeq, _hfin⟩ := enqueueAll_proj calls (JobQueue.new resolve)
  refine ⟨?_, ?_, ?_, ?_, ?_, ?_⟩
  · rw [hact]
    rfl
  · intro m hm
    simp at hm
  · exact enqueueAll_entries calls (JobQueue.new resolve) (by intro e he; simp [JobQueue.new, DependencyQueue.new] at he)
  · intro k
    rw [hpend]
    rfl
  · intro k hk
    rw [hpend] at hk
    simp [JobQueue.new, keyFind] at hk
  · intro k hk
    rw [hdeq] at hk
    simp [JobQueue.new, DependencyQueue.new] at hk

/-- Projections of the failure path of message processing: the pending
table, the queue and the state are untouched, the active counter is
decremented, and the message carried exactly that error. -/
theorem processMessage_fail_proj (jq jq2 : JobQueueSt) (m : Message)
    (e : String) (h : processMessage jq m = ProcRes.failRes e jq2) :
    jq2.pending = jq.pending ∧ jq2.queue = jq.queue ∧
    jq2.state = jq.state ∧ jq2.active = jq.active - 1 ∧
    m.2.2.2 = Except.error e := by
  unfold processMessage at h
  cases hst : keyFind jq.state m.1 with
  | none => simp [hst] at h
  | some v =>
    simp only [hst] at h
    cases hres : m.2.2.2 with
    | ok u =>
      cases u
      simp only [hres] at h
      cases hpd : keyFind jq.pending (m.1, m.2.1) with
      | none => simp [hpd] at h
      | some pb =>
        simp only [hpd] at h
        by_cases hz : pb.amt - 1 = 0
        · rw [if_pos hz] at h
          exact ProcRes.noConfusion h
        · rw [if_neg hz] at h
          exact ProcRes.noConfusion h
    | error e2 =>
      simp only [hres] at h
      injection h with h1 h2
      subst h2
      rw [← h1]
      exact ⟨rfl, rfl, rfl, rfl, rfl⟩

/-- The scheduling loop never takes the failed-lookup exit when started
under the loop invariant. -/
theorem executeAux_no_lookup (fuel : Nat) :
    ∀ (jq : JobQueueSt) (inflight : List Message) (sched : List Nat)
      (r : ExecRes) (final : JobQueueSt) (tr : List Event),
      LoopInv jq inflight →
      executeAux fuel jq inflight sched = some (r, final, tr) →
      r ≠ ExecRes.lookupFailure := by
  induction fuel with
  | zero =>
    intro jq inflight sched r final tr hinv h
    simp [executeAux] at h
  | succ f ih =>
    intro jq inflight sched r final tr hinv h
    rcases executeAux_succ_inv f jq inflight sched _ h with
      ⟨hlen, hout⟩ | ⟨hlen, i, sched2, m, inflight2, hsched, hpick, hcase⟩
    · have hr : r = ExecRes.success := by
        simpa using congrArg Prod.fst hout
      rw [hr]
      simp
    · have hinv1 := LoopInv_dispatchAll (jq.queue.entries.length + 1) jq
        inflight hinv
      rcases hcase with
        ⟨jq2, pevs, r2, final2, tr2, hproc, hrec, hout⟩ |
        ⟨e, jq2, hproc, hrest⟩ | ⟨hproc, hout⟩
      · have hinv2 := LoopInv_process_ok _ _ _ _ _ _ _ hinv1 hpick hproc
        have hr : r = r2 := by
          simpa using congrArg Prod.fst hout
        rw [hr]
        exact ih jq2 inflight2 sched2 r2 final2 tr2 hinv2 hrec
      · rcases hrest with ⟨_, ms, l3, s3, _, hout⟩ | ⟨_, hout⟩ <;>
        · have hr : r = ExecRes.failure e := by
            simpa using congrArg Prod.fst hout
          rw [hr]
          simp
      · exact absurd hproc
          (processMessage_no_lookupFailure _ _ _ _ _ hinv1 hpick)

/-- Outcome projection of an execution. -/
def execResOf (o : Option (ExecRes × JobQueueSt × List Event)) :
    Option ExecRes :=
  o.map (fun r => r.1)

/-- Final pending record of an execution at a key. -/
def finalPendingOf (o : Option (ExecRes × JobQueueSt × List Event))
    (k : StageKey) : Option PendingBuild :=
  match o with
  | some (_, final, _) => keyFind final.pending k
  | none => none

/-- Final dequeued key set of an execution. -/
def finalDequeuedOf (o : Option (ExecRes × JobQueueSt × List Event)) :
    List StageKey :=
  match o with
  | some (_, final, _) => final.queue.dequeuedKeys
  | none => []

/-- Trace of an execution. -/
def traceOf (o : Option (ExecRes × JobQueueSt × List Event)) : List Event :=
  match o with
  | some (_, _, tr) => tr
  | none => []

/-- A job whose run always succeeds. -/
def okJob : Job := ⟨"compile lib target", fun _ => Except.ok ()⟩

/-- A job whose run always fails. -/
def failJob : Job := ⟨"compile bin target", fun _ => Except.error "build failed"⟩

/-- One-package resolve context with no dependencies. -/
def soloResolve : Resolve := ⟨fun _ => some []⟩

/-- Driver calls for one package through all five stages, with one
succeeding job at the Libraries stage. -/
def soloCalls : List EnqueueCall :=
  [⟨⟨0⟩, TargetStage.StageStart, []⟩,
   ⟨⟨0⟩, TargetStage.StageCustomBuild, []⟩,
   ⟨⟨0⟩, TargetStage.StageLibraries, [(okJob, Freshness.Fresh)]⟩,
   ⟨⟨0⟩, TargetStage.StageBinaries, []⟩,
   ⟨⟨0⟩, TargetStage.StageEnd, []⟩]

/-- Driver calls for one package whose Libraries stage has a failing job
running alongside a succeeding one. -/
def failCalls : List EnqueueCall :=
  [⟨⟨0⟩, TargetStage.StageStart, []⟩,
   ⟨⟨0⟩, TargetStage.StageCustomBuild, []⟩,
   ⟨⟨0⟩, TargetStage.StageLibraries,
     [(failJob, Freshness.Fresh), (okJob, Freshness.Fresh)]⟩,
   ⟨⟨0⟩, TargetStage.StageBinaries, []⟩,
   ⟨⟨0⟩, TargetStage.StageEnd, []⟩]

/-- A message in flight contributes at least one to the count of its own
node key. -/
theorem msgKeyCount_pos (l : List Message) (m : Message) (h : m ∈ l) :
    1 ≤ msgKeyCount l (m.1, m.2.1) := by
  have hp : 0 < msgKeyCount l (m.1, m.2.1) := by
    unfold msgKeyCount
    rw [List.countP_pos_iff]
    exact ⟨m, h, by simp⟩
  omega

/-- C10: processing completion messages never fails at its two lookups. For
any execution started from a new job queue (any enqueue sequence, delivery
schedule and fuel) the result is never the failed-lookup outcome; the loop
invariant justifying this holds at the start of the loop and is preserved
both by the dispatch drain and by processing a success message; and at any
invariant state, a picked in-flight message has its package id registered
as a key of the state map (the find/unwrap succeeds), while on a success
outcome the pending table holds a PendingBuild for (id, stage) whose
remaining count is at least 1 before the decrement, so the source's uint
decrement cannot underflow. -/
theorem claim_c10_lookups_never_fail :
    (∀ (resolve : Resolve) (calls : List EnqueueCall) (sched : List Nat)
        (fuel : Nat) (r : ExecRes),
      execResOf (execute resolve calls sched fuel) = some r →
      r ≠ ExecRes.lookupFailure) ∧
    (∀ (resolve : Resolve) (calls : List EnqueueCall),
      LoopInv (enqueueAll (JobQueue.new resolve) calls) []) ∧
    (∀ (fuel : Nat) (jq : JobQueueSt) (inflight : List Message),
      LoopInv jq inflight →
      LoopInv (dispatchAll fuel jq).1
        (inflight ++ (dispatchAll fuel jq).2.2)) ∧
    (∀ (jq : JobQueueSt) (inflight l2 : List Message) (i : Nat)
        (m : Message),
      LoopInv jq inflight →
      pickMessage inflight i = some (m, l2) →
      (keyFind jq.state m.1).isSome = true ∧
      (m.2.2.2 = Except.ok () →
        ∃ pb, keyFind jq.pending (m.1, m.2.1) = some pb ∧ 1 ≤ pb.amt)) ∧
    (∀ (jq jq2 : JobQueueSt) (inflight l2 : List Message) (i : Nat)
        (m : Message) (evs : List Event),
      LoopInv jq inflight →
      pickMessage inflight i = some (m, l2) →
      processMessage jq m = ProcRes.okRes jq2 evs →
      LoopInv jq2 l2) := by
  refine ⟨?_, ?_, ?_, ?_, ?_⟩
  · intro resolve calls sched fuel r h
    cases hx : execute resolve calls sched fuel with
    | none =>
      rw [hx] at h
      exact Option.noConfusion h
    | some out =>
      obtain ⟨r0, final, tr⟩ := out
      rw [hx] at h
      simp [execResOf] at h
      subst h
      exact executeAux_no_lookup fuel _ [] sched r0 final tr
        (LoopInv_initial resolve calls) hx
  · exact fun resolve calls => LoopInv_initial resolve calls
  · exact fun fuel jq inflight hinv => LoopInv_dispatchAll fuel jq inflight hinv
  · intro jq inflight l2 i m hinv hpick
    have hm := pickMessage_mem inflight i m l2 hpick
    refine ⟨hinv.hmsgState m hm, ?_⟩
    intro _hok
    have hc := hinv.hcount (m.1, m.2.1)
    have hpos := msgKeyCount_pos inflight m hm
    rw [hc] at hpos
    cases hpd : keyFind jq.pending (m.1, m.2.1) with
    | none =>
      rw [hpd] at hpos
      simp at hpos
    | some pb =>
      rw [hpd] at hpos
      exact ⟨pb, rfl, hpos⟩
  · exact fun jq jq2 inflight l2 i m evs hinv hpick hproc =>
      LoopInv_process_ok jq jq2 inflight l2 m i evs hinv hpick hproc

/-- C10 witness: the five-stage single-package execution completes with
success, which is not the failed-lookup outcome. -/
theorem claim_c10_lookups_never_fail_witness :
    execResOf (execute soloResolve soloCalls [0, 0, 0, 0, 0] 7) =
        some ExecRes.success ∧
    ExecRes.success ≠ ExecRes.lookupFailure :=
  ⟨rfl, claim_c10_lookups_never_fail.1 soloResolve soloCalls
    [0, 0, 0, 0, 0] 7 ExecRes.success rfl⟩

/-- At every exit of the scheduling loop the pending table's keys are
exactly the dequeued keys: a PendingBuild is created when a node is
dispatched and never removed afterwards. -/
theorem executeAux_pending_dequeued (fuel : Nat) :
    ∀ (jq : JobQueueSt) (inflight : List Message) (sched : List Nat)
      (r : ExecRes) (final : JobQueueSt) (tr : List Event),
      LoopInv jq inflight →
      executeAux fuel jq inflight sched = some (r, final, tr) →
      ∀ k, ((keyFind final.pending k).isSome = true ↔
        k ∈ final.queue.dequeuedKeys) := by
  induction fuel with
  | zero =>
    intro jq inflight sched r final tr hinv h
    simp [executeAux] at h
  | succ f ih =>
    intro jq inflight sched r final tr hinv h
    rcases executeAux_succ_inv f jq inflight sched _ h with
      ⟨hlen, hout⟩ | ⟨hlen, i, sched2, m, inflight2, hsched, hpick, hcase⟩
    · have hf : final = jq := by
        simpa using congrArg (fun p => p.2.1) hout
      subst hf
      exact fun k => ⟨hinv.hpendDeq k, hinv.hdeqPend k⟩
    · have hinv1 := LoopInv_dispatchAll (jq.queue.entries.length + 1) jq
        inflight hinv
      rcases hcase with
        ⟨jq2, pevs, r2, final2, tr2, hproc, hrec, hout⟩ |
        ⟨e, jq2, hproc, hrest⟩ | ⟨hproc, hout⟩
      · have hf : final = final2 := by
          simpa using congrArg (fun p => p.2.1) hout
        subst hf
        have hinv2 := LoopInv_process_ok _ _ _ _ _ _ _ hinv1 hpick hproc
        exact ih jq2 inflight2 sched2 r2 final tr2 hinv2 hrec
      · obtain ⟨hpend2, hqueue2, _, _, _⟩ :=
          processMessage_fail_proj _ _ _ _ hproc
        have hf : final = jq2 := by
          rcases hrest with ⟨_, ms, l3, s3, _, hout⟩ | ⟨_, hout⟩ <;>
            simpa using congrArg (fun p => p.2.1) hout
        subst hf
        intro k
        rw [hpend2, hqueue2]
        exact ⟨hinv1.hpendDeq k, hinv1.hdeqPend k⟩
      · have hf : final = (dispatchAll (jq.queue.entries.length + 1) jq).1 := by
          simpa using congrArg (fun p => p.2.1) hout
        subst hf
        exact fun k => ⟨hinv1.hpendDeq k, hinv1.hdeqPend k⟩

/-- The success path of message processing keeps every pending key present,
merely updating the record at the message's key. -/
theorem processMessage_ok_pending (jq jq2 : JobQueueSt) (m : Message)
    (evs : List Event) (h : processMessage jq m = ProcRes.okRes jq2 evs) :
    ∃ pb, keyFind jq.pending (m.1, m.2.1) = some pb ∧
      jq2.pending = pendingInsert jq.pending (m.1, m.2.1)
        ⟨pb.amt - 1, pb.fresh.combine m.2.2.1⟩ := by
  unfold processMessage at h
  cases hst : keyFind jq.state m.1 with
  | none => simp [hst] at h
  | some v =>
    simp only [hst] at h
    cases hres : m.2.2.2 with
    | error e => simp [hres] at h
    | ok u =>
      cases u
      simp only [hres] at h
      cases hpd : keyFind jq.pending (m.1, m.2.1) with
      | none => simp [hpd] at h
      | some pb =>
        simp only [hpd] at h
        refine ⟨pb, rfl, ?_⟩
        by_cases hz : pb.amt - 1 = 0
        · rw [if_pos hz] at h
          injection h with h1 h2
          rw [← h1]
        · rw [if_neg hz] at h
          injection h with h1 h2
          rw [← h1]

/-- C4 counterexample: in the concrete five-stage single-package execution,
finish is called for the Start node (its remaining count reached zero), yet
the PendingBuild record is still in the table afterwards, with count 0: the
source never removes it. -/
theorem claim_c4_counterexample :
    0 < finishCount (traceOf (execute soloResolve soloCalls [0, 0, 0, 0, 0] 7))
      (0, TargetStage.StageStart) ∧
    finalPendingOf (execute soloResolve soloCalls [0, 0, 0, 0, 0] 7)
      (0, TargetStage.StageStart) = some ⟨0, Freshness.Fresh⟩ := by
  exact ⟨by decide, rfl⟩

/-- C4 (amended): a PendingBuild record is created when the node's jobs are
dispatched, and it is never removed: when the remaining count reaches zero
its freshness is handed to the dependency queue via finish but the record
stays in the table with count zero, so at every exit of the loop the pending
table has exactly one record per dispatched (dequeued) node and none for
never-dispatched nodes. -/
theorem claim_c4_pending_retained :
    (∀ (jq : JobQueueSt) (pkg : Package) (stage : TargetStage)
        (fresh : Freshness) (jobs : List (Job × Freshness)),
      keyFind (JobQueue.run jq pkg stage fresh jobs).1.pending
        (pkg.get_package_id, stage) =
        some ⟨if jobs.length = 0 then 1 else jobs.length, fresh⟩) ∧
    (∀ (jq jq2 : JobQueueSt) (m : Message) (evs : List Event),
      processMessage jq m = ProcRes.okRes jq2 evs →
      ∀ k, (keyFind jq.pending k).isSome = true →
        (keyFind jq2.pending k).isSome = true) ∧
    (∀ (resolve : Resolve) (calls : List EnqueueCall) (sched : List Nat)
        (fuel : Nat) (k : StageKey),
      (execute resolve calls sched fuel).isSome = true →
      ((finalPendingOf (execute resolve calls sched fuel) k).isSome = true ↔
        k ∈ finalDequeuedOf (execute resolve calls sched fuel))) := by
  refine ⟨?_, ?_, ?_⟩
  · intro jq pkg stage fresh jobs
    rw [run_proj]
    exact pendingInsert_self _ _ _
  · intro jq jq2 m evs h k hk
    obtain ⟨pb, hpd, hp2⟩ := processMessage_ok_pending jq jq2 m evs h
    rw [hp2]
    by_cases hkm : k = (m.1, m.2.1)
    · subst hkm
      rw [pendingInsert_self]
      rfl
    · rw [pendingInsert_other _ _ _ _ hkm]
      exact hk
  · intro resolve calls sched fuel k hs
    cases hx : execute resolve calls sched fuel with
    | none => rw [hx] at hs; exact Bool.noConfusion hs
    | some out =>
      obtain ⟨r0, final, tr⟩ := out
      have := executeAux_pending_dequeued fuel _ [] sched r0 final tr
        (LoopInv_initial resolve calls) hx k
      simpa [hx, finalPendingOf, finalDequeuedOf] using this

/-- C4 witness: the retained-record equivalence evaluated on the concrete
single-package execution at the Start node. -/
theorem claim_c4_pending_retained_witness :
    (finalPendingOf (execute soloResolve soloCalls [0, 0, 0, 0, 0] 7)
      (0, TargetStage.StageStart)).isSome = true ↔
    (0, TargetStage.StageStart) ∈
      finalDequeuedOf (execute soloResolve soloCalls [0, 0, 0, 0, 0] 7) :=
  claim_c4_pending_retained.2.2 soloResolve soloCalls [0, 0, 0, 0, 0] 7
    (0, TargetStage.StageStart) rfl

/-- Receives split over append. -/
theorem recvList_append (l1 l2 : List Event) :
    recvList (l1 ++ l2) = recvList l1 ++ recvList l2 :=
  List.filterMap_append _ _ _

/-- Units split over append. -/
theorem unitCount_append (l1 l2 : List Event) :
    unitCount (l1 ++ l2) = unitCount l1 + unitCount l2 :=
  List.countP_append _ _ _

/-- Status lines split over append. -/
theorem statusCount_append (l1 l2 : List Event) (p : PackageId) :
    statusCount (l1 ++ l2) p = statusCount l1 p + statusCount l2 p :=
  List.countP_append _ _ _

/-- Mapping messages to receive events and back is the identity. -/
theorem recvList_map (ms : List Message) :
    recvList (ms.map Event.recvMsg) = ms := by
  induction ms with
  | nil => rfl
  | cons a r ih =>
    simp only [List.map_cons, recvList, List.filterMap_cons] at ih ⊢
    rw [ih]

/-- Counting facts about the job-loop events: one unit per job, no receives,
no status lines. -/
theorem jobLoop_events_counts (id : PackageId) (stage : TargetStage)
    (fresh : Freshness) (jobs : List (Job × Freshness)) :
    unitCount (jobLoop id stage fresh jobs).1 = jobs.length ∧
    recvList (jobLoop id stage fresh jobs).1 = [] ∧
    (∀ p, statusCount (jobLoop id stage fresh jobs).1 p = 0) := by
  induction jobs with
  | nil => exact ⟨rfl, rfl, fun p => rfl⟩
  | cons jf rest ih =>
    obtain ⟨ih1, ih2, ih3⟩ := ih
    refine ⟨?_, ?_, ?_⟩
    · show unitCount ((if (jf.2.combine fresh) = Freshness.Dirty
        then [Event.describeJob jf.1.desc] else []) ++
        Event.submitJob id stage (jf.2.combine fresh) ::
          (jobLoop id stage fresh rest).1) = _
      rw [unitCount_append]
      by_cases hd : jf.2.combine fresh = Freshness.Dirty <;>
        simp [hd, unitCount, List.countP_cons] at ih1 ⊢ <;>
        simp [ih1] <;> omega
    · show recvList ((if (jf.2.combine fresh) = Freshness.Dirty
        then [Event.describeJob jf.1.desc] else []) ++
        Event.submitJob id stage (jf.2.combine fresh) ::
          (jobLoop id stage fresh rest).1) = _
      rw [recvList_append]
      by_cases hd : jf.2.combine fresh = Freshness.Dirty <;>
        simp [hd, recvList, List.filterMap_cons] at ih2 ⊢ <;> exact ih2
    · intro p
      show statusCount ((if (jf.2.combine fresh) = Freshness.Dirty
        then [Event.describeJob jf.1.desc] else []) ++
        Event.submitJob id stage (jf.2.combine fresh) ::
          (jobLoop id stage fresh rest).1) p = _
      rw [statusCount_append]
      have := ih3 p
      by_cases hd : jf.2.combine fresh = Freshness.Dirty <;>
        simp [hd, statusCount, List.countP_cons] at this ⊢ <;> exact this

/-- The events of a node dispatch, in emission order. -/
theorem run_events_shape (jq : JobQueueSt) (pkg : Package)
    (stage : TargetStage) (fresh : Freshness)
    (jobs : List (Job × Freshness)) :
    (JobQueue.run jq pkg stage fresh jobs).2.1 =
      Event.dispatchNode pkg.get_package_id stage fresh ::
        ((if stage = TargetStage.StageStart
          then [Event.statusLine pkg.get_package_id
            (fresh.combine (stateIndex jq.state pkg.get_package_id))]
          else []) ++
         ((jobLoop pkg.get_package_id stage fresh jobs).1 ++
          (if jobs.length = 0
           then [Event.syntheticSend pkg.get_package_id stage fresh]
           else []))) := by
  show Event.dispatchNode pkg.get_package_id stage fresh ::
      (if stage = TargetStage.StageStart
       then [Event.statusLine pkg.get_package_id
         (fresh.combine (stateIndex jq.state pkg.get_package_id))]
       else []) ++
      (jobLoop pkg.get_package_id stage fresh jobs).1 ++
      (if jobs.length = 0
       then [Event.syntheticSend pkg.get_package_id stage fresh]
       else []) = _
  simp [List.append_assoc]

/-- A non-unit event does not change the unit count. -/
theorem unitCount_skip (e : Event) (l : List Event)
    (h : (match e with
          | Event.submitJob _ _ _ => true
          | Event.syntheticSend _ _ _ => true
          | _ => false) = false) :
    unitCount (e :: l) = unitCount l := by
  simp [unitCount, List.countP_cons, h]

/-- A non-receive event does not change the receive list. -/
theorem recvList_skip (e : Event) (l : List Event)
    (h : (match e with
          | Event.recvMsg m => some m
          | _ => none) = (none : Option Message)) :
    recvList (e :: l) = recvList l := by
  simp [recvList, List.filterMap_cons, h]

/-- A non-status event does not change the status count. -/
theorem statusCount_skip (e : Event) (l : List Event) (p : PackageId)
    (h : (match e with
          | Event.statusLine id _ => decide (id = p)
          | _ => false) = false) :
    statusCount (e :: l) p = statusCount l p := by
  simp only [statusCount, List.countP_cons, h]
  rfl

/-- Counting facts about a node dispatch: as many units as completion
messages, no receives, and exactly one status line (for the node's package)
when and only when the stage is StageStart. -/
theorem run_events_counts (jq : JobQueueSt) (pkg : Package)
    (stage : TargetStage) (fresh : Freshness)
    (jobs : List (Job × Freshness)) :
    unitCount (JobQueue.run jq pkg stage fresh jobs).2.1 =
      (JobQueue.run jq pkg stage fresh jobs).2.2.length ∧
    recvList (JobQueue.run jq pkg stage fresh jobs).2.1 = [] ∧
    (∀ p, statusCount (JobQueue.run jq pkg stage fresh jobs).2.1 p =
      if stage = TargetStage.StageStart ∧ p = pkg.get_package_id
      then 1 else 0) := by
  obtain ⟨hj1, hj2, hj3⟩ :=
    jobLoop_events_counts pkg.get_package_id stage fresh jobs
  have hlen := run_msgs_length jq pkg stage fresh jobs
  refine ⟨?_, ?_, ?_⟩
  · rw [run_events_shape, unitCount_skip _ _ rfl, unitCount_append,
      unitCount_append, hlen, hj1]
    by_cases hs : stage = TargetStage.StageStart <;>
      by_cases hz : jobs.length = 0 <;>
        simp [hs, hz, unitCount, List.countP_cons]
  · rw [run_events_shape, recvList_skip _ _ rfl, recvList_append,
      recvList_append, hj2]
    by_cases hs : stage = TargetStage.StageStart <;>
      by_cases hz : jobs.length = 0 <;>
        simp [hs, hz, recvList, List.filterMap_cons]
  · intro p
    rw [run_events_shape, statusCount_skip _ _ _ rfl, statusCount_append,
      statusCount_append, hj3 p]
    by_cases hs : stage = TargetStage.StageStart <;>
      by_cases hz : jobs.length = 0 <;>
        by_cases hp : p = pkg.get_package_id <;>
          simp [hs, hz, hp, statusCount, List.countP_cons] <;>
          exact fun hh => hp hh.symm

/-- The dispatch drain touches neither the entries, the finished set, the
state map nor the resolve context, and only extends the dequeued keys. -/
theorem dispatchAll_queue (fuel : Nat) :
    ∀ jq : JobQueueSt,
      (dispatchAll fuel jq).1.queue.entries = jq.queue.entries ∧
      (dispatchAll fuel jq).1.state = jq.state ∧
      (∀ k, k ∈ jq.queue.dequeuedKeys →
        k ∈ (dispatchAll fuel jq).1.queue.dequeuedKeys) := by
  induction fuel with
  | zero => intro jq; exact ⟨rfl, rfl, fun k hk => hk⟩
  | succ f ih =>
    intro jq
    cases hdq : jq.queue.dequeue jq.resolve with
    | mk o q2 =>
      cases o with
      | none =>
        have hda : dispatchAll (f + 1) jq = (jq, [], []) := by
          simp only [dispatchAll, hdq]
        rw [hda]
        exact ⟨rfl, rfl, fun k hk => hk⟩
      | some t =>
        obtain ⟨fresh, k, pkg, jobs⟩ := t
        simp only [dispatchAll, hdq]
        obtain ⟨_, hndq, hent, _hfin, hdeq⟩ :=
          dequeue_some_spec _ _ _ _ _ _ _ hdq
        obtain ⟨ih1, ih2, ih3⟩ :=
          ih (JobQueue.run { jq with queue := q2 } pkg k.2 fresh jobs).1
        refine ⟨?_, ih2, ?_⟩
        · rw [ih1]
          exact hent
        · intro k2 hk2
          refine ih3 k2 ?_
          show k2 ∈ q2.dequeuedKeys
          rw [hdeq]
          exact List.mem_append_left _ hk2

/-- The dispatch drain emits one unit event per produced message and no
receive events. -/
theorem dispatchAll_events (fuel : Nat) :
    ∀ jq : JobQueueSt,
      unitCount (dispatchAll fuel jq).2.1 =
        (dispatchAll fuel jq).2.2.length ∧
      recvList (dispatchAll fuel jq).2.1 = [] := by
  induction fuel with
  | zero => intro jq; exact ⟨rfl, rfl⟩
  | succ f ih =>
    intro jq
    cases hdq : jq.queue.dequeue jq.resolve with
    | mk o q2 =>
      cases o with
      | none =>
        simp only [dispatchAll, hdq]
        exact ⟨rfl, rfl⟩
      | some t =>
        obtain ⟨fresh, k, pkg, jobs⟩ := t
        simp only [dispatchAll, hdq]
        obtain ⟨hr1, hr2, _⟩ :=
          run_events_counts { jq with queue := q2 } pkg k.2 fresh jobs
        obtain ⟨hd1, hd2⟩ :=
          ih (JobQueue.run { jq with queue := q2 } pkg k.2 fresh jobs).1
        constructor
        · rw [unitCount_append, List.length_append, hr1, hd1]
        · rw [recvList_append, hr2, hd2]
          rfl

/-- The status lines of a dispatch drain: exactly one for package p when
the drain dequeues the node (p, StageStart), tracked through the dequeued
key set. -/
theorem dispatchAll_status (fuel : Nat) (p : PackageId) :
    ∀ jq : JobQueueSt,
      (∀ e ∈ jq.queue.entries, e.2.2.1.get_package_id = e.1.1) →
      statusCount (dispatchAll fuel jq).2.1 p +
        (if (p, TargetStage.StageStart) ∈ jq.queue.dequeuedKeys
         then 1 else 0) =
        (if (p, TargetStage.StageStart) ∈
            (dispatchAll fuel jq).1.queue.dequeuedKeys
         then 1 else 0) := by
  induction fuel with
  | zero =>
    intro jq hids
    simp [dispatchAll, statusCount]
  | succ f ih =>
    intro jq hids
    cases hdq : jq.queue.dequeue jq.resolve with
    | mk o q2 =>
      cases o with
      | none =>
        have hda : dispatchAll (f + 1) jq = (jq, [], []) := by
          simp only [dispatchAll, hdq]
        rw [hda]
        simp [statusCount]
      | some t =>
        obtain ⟨fresh, k, pkg, jobs⟩ := t
        simp only [dispatchAll, hdq]
        obtain ⟨⟨f0, hmem⟩, hndq, hent, _hfin, hdeq⟩ :=
          dequeue_some_spec _ _ _ _ _ _ _ hdq
        have hid := hids (k, f0, pkg, jobs) hmem
        obtain ⟨_, _, hr3⟩ :=
          run_events_counts { jq with queue := q2 } pkg k.2 fresh jobs
        have hids2 : ∀ e ∈ (JobQueue.run { jq with queue := q2 } pkg k.2
            fresh jobs).1.queue.entries, e.2.2.1.get_package_id = e.1.1 := by
          intro e he
          have he2 : e ∈ q2.entries := he
          rw [hent] at he2
          exact hids e he2
        have hih := ih (JobQueue.run { jq with queue := q2 } pkg k.2 fresh
          jobs).1 hids2
        rw [statusCount_append, hr3 p]
        have hdeq2 : (JobQueue.run { jq with queue := q2 } pkg k.2 fresh
            jobs).1.queue.dequeuedKeys = jq.queue.dequeuedKeys ++ [k] := hdeq
        by_cases hk : k = (p, TargetStage.StageStart)
        · have hk2 : k.2 = TargetStage.StageStart := by rw [hk]
          have hkp : p = pkg.get_package_id := by rw [hid, hk]
          rw [if_pos ⟨hk2, hkp⟩]
          have hndq2 : (p, TargetStage.StageStart) ∉ jq.queue.dequeuedKeys :=
            by rw [← hk]; exact hndq
          rw [if_neg hndq2]
          rw [hdeq2] at hih
          rw [if_pos (by rw [← hk]; simp)] at hih
          omega
        · have hnot : ¬ (k.2 = TargetStage.StageStart ∧
              p = pkg.get_package_id) := by
            intro ⟨h1, h2⟩
            apply hk
            have : k.1 = p := by rw [← hid, ← h2]
            calc k = (k.1, k.2) := by rw [Prod.mk.eta]
            _ = (p, TargetStage.StageStart) := by rw [this, h1]
          rw [if_neg hnot]
          rw [hdeq2] at hih
          have hmemiff : ((p, TargetStage.StageStart) ∈
              jq.queue.dequeuedKeys ++ [k]) ↔
              ((p, TargetStage.StageStart) ∈ jq.queue.dequeuedKeys) := by
            simp [List.mem_append]
            intro hh
            exact absurd hh.symm hk
          by_cases hmem2 : (p, TargetStage.StageStart) ∈ jq.queue.dequeuedKeys
          · rw [if_pos hmem2]
            rw [if_pos (hmemiff.mpr hmem2)] at hih
            omega
          · rw [if_neg hmem2]
            rw [if_neg (fun hh => hmem2 (hmemiff.mp hh))] at hih
            omega

/-- Description of the success path of message processing: the message was a
success, the active counter drops by one, state and dequeued keys are
untouched, entries only possibly lose the message's key, and the produced
events are finish calls only. -/
theorem processMessage_ok_desc (jq jq2 : JobQueueSt) (m : Message)
    (evs : List Event) (h : processMessage jq m = ProcRes.okRes jq2 evs) :
    m.2.2.2 = Except.ok () ∧
    jq2.active = jq.active - 1 ∧
    jq2.state = jq.state ∧
    jq2.queue.dequeuedKeys = jq.queue.dequeuedKeys ∧
    (∀ e ∈ jq.queue.entries, e ∈ jq2.queue.entries ∨ e.1 = (m.1, m.2.1)) ∧
    recvList evs = [] ∧ unitCount evs = 0 ∧
    (∀ p, statusCount evs p = 0) := by
  unfold processMessage at h
  cases hst : keyFind jq.state m.1 with
  | none => simp [hst] at h
  | some v =>
    simp only [hst] at h
    cases hres : m.2.2.2 with
    | error e => simp [hres] at h
    | ok u =>
      cases u
      simp only [hres] at h
      cases hpd : keyFind jq.pending (m.1, m.2.1) with
      | none => simp [hpd] at h
      | some pb =>
        simp only [hpd] at h
        by_cases hz : pb.amt - 1 = 0
        · rw [if_pos hz] at h
          injection h with h1 h2
          subst h1
          subst h2
          refine ⟨rfl, rfl, rfl, rfl, ?_, rfl, rfl, fun p => rfl⟩
          intro e he
          by_cases hek : e.1 = (m.1, m.2.1)
          · exact Or.inr hek
          · refine Or.inl ?_
            show e ∈ List.filter _ jq.queue.entries
            exact List.mem_filter.mpr ⟨he, by simp [hek]⟩
        · rw [if_neg hz] at h
          injection h with h1 h2
          subst h1
          subst h2
          exact ⟨rfl, rfl, rfl, rfl, fun e he => Or.inl he, rfl, rfl,
            fun p => rfl⟩

/-- A receive event conses onto the receive list. -/
theorem recvList_cons_recv (m : Message) (l : List Event) :
    recvList (Event.recvMsg m :: l) = m :: recvList l := by
  simp [recvList, List.filterMap_cons]

/-- A receive event does not change the unit count. -/
theorem unitCount_cons_recv (m : Message) (l : List Event) :
    unitCount (Event.recvMsg m :: l) = unitCount l := unitCount_skip _ _ rfl

/-- Failure traces of the scheduling loop decompose as: a prefix whose
received messages are all successes, the first failing message, and a drain
tail of pure receive events (preceded by the drain notice when nonempty)
whose length is exactly the number of still-outstanding work units. -/
theorem executeAux_failure_trace (fuel : Nat) :
    ∀ (jq : JobQueueSt) (inflight : List Message) (sched : List Nat)
      (e : String) (final : JobQueueSt) (tr : List Event),
      LoopInv jq inflight →
      executeAux fuel jq inflight sched =
        some (ExecRes.failure e, final, tr) →
      ∃ t1 m t2,
        tr = t1 ++ Event.recvMsg m :: t2 ∧
        m.2.2.2 = Except.error e ∧
        (∀ m2 ∈ recvList t1, m2.2.2.2 = Except.ok ()) ∧
        (recvList t2).length + (recvList t1).length + 1 =
          unitCount t1 + inflight.length ∧
        (t2 = [] ∨
         t2 = Event.drainNotice :: (recvList t2).map Event.recvMsg) := by
  induction fuel with
  | zero =>
    intro jq inflight sched e final tr hinv h
    simp [executeAux] at h
  | succ f ih =>
    intro jq inflight sched e final tr hinv h
    rcases executeAux_succ_inv f jq inflight sched _ h with
      ⟨hlen, hout⟩ | ⟨hlen, i, sched2, m, inflight2, hsched, hpick, hcase⟩
    · have hbad : ExecRes.failure e = ExecRes.success := by
        simpa using congrArg Prod.fst hout
      exact ExecRes.noConfusion hbad
    · have hinv1 := LoopInv_dispatchAll (jq.queue.entries.length + 1) jq
        inflight hinv
      obtain ⟨hDunit, hDrecv⟩ :=
        dispatchAll_events (jq.queue.entries.length + 1) jq
      have hplen := pickMessage_length _ _ _ _ hpick
      rw [List.length_append] at hplen
      have hact1 : (dispatchAll (jq.queue.entries.length + 1) jq).1.active =
          inflight.length +
          (dispatchAll (jq.queue.entries.length + 1) jq).2.2.length := by
        have hh := hinv1.hactive
        rw [hh, List.length_append]
      rcases hcase with
        ⟨jq2, pevs, r2, final2, tr2, hproc, hrec, hout⟩ |
        ⟨e2, jq2, hproc, hrest⟩ | ⟨hproc, hout⟩
      · obtain ⟨hmok, hact2, _, _, _, hprecv, hpunit, _⟩ :=
          processMessage_ok_desc _ _ _ _ hproc
        have hr : ExecRes.failure e = r2 := by
          simpa using congrArg Prod.fst hout
        have htr : tr =
            (dispatchAll (jq.queue.entries.length + 1) jq).2.1 ++
              Event.recvMsg m :: pevs ++ tr2 := by
          simpa using congrArg (fun p => p.2.2) hout
        have hinv2 := LoopInv_process_ok _ _ _ _ _ _ _ hinv1 hpick hproc
        obtain ⟨t1, m2, t2, htr2, hm2, hok1, hcount, hshape⟩ :=
          ih jq2 inflight2 sched2 e final2 tr2 hinv2
            (by rw [← hr] at hrec; exact hrec)
        refine ⟨(dispatchAll (jq.queue.entries.length + 1) jq).2.1 ++
          Event.recvMsg m :: pevs ++ t1, m2, t2, ?_, hm2, ?_, ?_, hshape⟩
        · rw [htr, htr2]
          simp [List.append_assoc]
        · intro m3 hm3
          simp only [recvList_append, recvList_cons_recv, hDrecv, hprecv,
            List.nil_append, List.append_nil] at hm3
          rcases List.mem_cons.mp hm3 with hm3 | hm3
          · rw [hm3]
            exact hmok
          · exact hok1 m3 hm3
        · simp only [recvList_append, recvList_cons_recv, unitCount_append,
            unitCount_cons_recv, hDrecv, hDunit, hprecv, hpunit,
            List.nil_append, List.append_nil, List.length_append,
            List.length_cons, List.length_nil, List.singleton_append,
            Nat.add_zero, Nat.zero_add]
          omega
      · obtain ⟨hpend2, hqueue2, hstate2, hact2, hmerr⟩ :=
          processMessage_fail_proj _ _ _ _ hproc
        rcases hrest with ⟨hact, ms, l3, s3, hdr, hout⟩ | ⟨hact0, hout⟩
        · have he : e2 = e := by
            have h1 := congrArg Prod.fst hout
            simp at h1
            exact h1.symm
          subst he
          have htr : tr =
              (dispatchAll (jq.queue.entries.length + 1) jq).2.1 ++
                Event.recvMsg m :: Event.drainNotice ::
                  ms.map Event.recvMsg := by
            simpa using congrArg (fun p => p.2.2) hout
          have hmslen := drainMessages_length _ _ _ _ _ _ hdr
          refine ⟨(dispatchAll (jq.queue.entries.length + 1) jq).2.1, m,
            Event.drainNotice :: ms.map Event.recvMsg, htr, hmerr,
            ?_, ?_, ?_⟩
          · intro m3 hm3
            rw [hDrecv] at hm3
            simp at hm3
          · rw [hDrecv, recvList_skip _ _ rfl, recvList_map, hDunit]
            simp only [List.length_nil]
            omega
          · refine Or.inr ?_
            rw [recvList_skip _ _ rfl, recvList_map]
        · have he : e2 = e := by
            have h1 := congrArg Prod.fst hout
            simp at h1
            exact h1.symm
          subst he
          have htr : tr =
              (dispatchAll (jq.queue.entries.length + 1) jq).2.1 ++
                [Event.recvMsg m] := by
            simpa using congrArg (fun p => p.2.2) hout
          refine ⟨(dispatchAll (jq.queue.entries.length + 1) jq).2.1, m,
            [], ?_, hmerr, ?_, ?_, Or.inl rfl⟩
          · rw [htr]
          · intro m3 hm3
            rw [hDrecv] at hm3
            simp at hm3
          · rw [hDrecv, hDunit]
            simp only [recvList, List.filterMap_nil, List.length_nil]
            omega
      · have hbad : ExecRes.failure e = ExecRes.lookupFailure := by
          simpa using congrArg Prod.fst hout
        exact ExecRes.noConfusion hbad

/-- C2: when an execution returns a failure, its trace splits into a prefix
whose received messages were all successes, the first failing message
(whose error is returned unchanged, never aggregated), and a tail that
consumes exactly as many further completion messages as there were
dispatched work units not yet consumed at the failure (the drain), with no
node dispatched after the failure: the tail is pure receive events behind
the drain notice. -/
theorem claim_c2_fail_fast_drain (resolve : Resolve)
    (calls : List EnqueueCall) (sched : List Nat) (fuel : Nat) (e : String)
    (h : execResOf (execute resolve calls sched fuel) =
      some (ExecRes.failure e)) :
    ∃ t1 m t2,
      traceOf (execute resolve calls sched fuel) =
        t1 ++ Event.recvMsg m :: t2 ∧
      m.2.2.2 = Except.error e ∧
      (∀ m2 ∈ recvList t1, m2.2.2.2 = Except.ok ()) ∧
      (recvList t2).length + (recvList t1).length + 1 = unitCount t1 ∧
      (t2 = [] ∨
       t2 = Event.drainNotice :: (recvList t2).map Event.recvMsg) := by
  cases hx : execute resolve calls sched fuel with
  | none =>
    rw [hx] at h
    exact Option.noConfusion h
  | some out =>
    obtain ⟨r0, final, tr⟩ := out
    rw [hx] at h
    simp [execResOf] at h
    subst h
    have := executeAux_failure_trace fuel _ [] sched e final tr
      (LoopInv_initial resolve calls) hx
    simpa [hx, traceOf] using this

/-- C2 witness: the concrete execution whose Libraries stage has a failing
job and a succeeding one; the failure is consumed first and exactly one
further message is drained. -/
theorem claim_c2_fail_fast_drain_witness :
    ∃ t1 m t2,
      traceOf (execute soloResolve failCalls [0, 0, 0, 0] 5) =
        t1 ++ Event.recvMsg m :: t2 ∧
      m.2.2.2 = Except.error "build failed" ∧
      (∀ m2 ∈ recvList t1, m2.2.2.2 = Except.ok ()) ∧
      (recvList t2).length + (recvList t1).length + 1 = unitCount t1 ∧
      (t2 = [] ∨
       t2 = Event.drainNotice :: (recvList t2).map Event.recvMsg) :=
  claim_c2_fail_fast_drain soloResolve failCalls [0, 0, 0, 0] 5
    "build failed" rfl

/-- Pure receive tails carry no status lines. -/
theorem statusCount_map_recv (ms : List Message) (p : PackageId) :
    statusCount (ms.map Event.recvMsg) p = 0 := by
  induction ms with
  | nil => rfl
  | cons a r ih =>
    rw [List.map_cons, statusCount_skip _ _ _ rfl]
    exact ih

/-- A found key names a member of the association list. -/
theorem keyFind_mem {α : Type} [DecidableEq α] {β : Type}
    (l : List (α × β)) (k : α) (v : β) (h : keyFind l k = some v) :
    (k, v) ∈ l := by
  induction l with
  | nil => simp [keyFind] at h
  | cons hd tl ih =>
    obtain ⟨k0, v0⟩ := hd
    by_cases hk : k0 = k
    · subst hk
      simp [keyFind] at h
      simp [h]
    · simp [keyFind, hk] at h
      exact List.mem_cons_of_mem _ (ih h)

/-- Inserting a node's key makes it present. -/
theorem entriesInsert_present
    (l : List (StageKey × Freshness × Package × List (Job × Freshness)))
    (f : Freshness) (k : StageKey) (pkg : Package)
    (jobs : List (Job × Freshness)) :
    (keyFind (entriesInsert l f k pkg jobs) k).isSome = true := by
  induction l with
  | nil => simp [entriesInsert, keyFind]
  | cons hd tl ih =>
    obtain ⟨k0, f0, pkg0, jobs0⟩ := hd
    by_cases hk : k0 = k
    · subst hk
      simp [entriesInsert, keyFind]
    · simp [entriesInsert, keyFind, hk]
      exact ih

/-- Insertion keeps every present key present. -/
theorem entriesInsert_keeps
    (l : List (StageKey × Freshness × Package × List (Job × Freshness)))
    (f : Freshness) (k k2 : StageKey) (pkg : Package)
    (jobs : List (Job × Freshness))
    (h : (keyFind l k2).isSome = true) :
    (keyFind (entriesInsert l f k pkg jobs) k2).isSome = true := by
  induction l with
  | nil => simp [keyFind] at h
  | cons hd tl ih =>
    obtain ⟨k0, f0, pkg0, jobs0⟩ := hd
    by_cases hk : k0 = k
    · by_cases hk2 : k0 = k2
      · have hkk2 : k = k2 := by rw [← hk]; exact hk2
        simp [entriesInsert, keyFind, hk, hkk2]
      · have hkk2 : ¬ (k = k2) := by rw [← hk]; exact hk2
        simp [keyFind, hk2] at h
        simp [entriesInsert, keyFind, hk, hkk2]
        exact h
    · by_cases hk2 : k0 = k2
      · have hk2k : ¬ (k2 = k) := by rw [← hk2]; exact hk
        simp [entriesInsert, keyFind, hk, hk2, hk2k]
      · simp [keyFind, hk2] at h
        simp [entriesInsert, keyFind, hk, hk2]
        exact ih h

/-- Every stage enqueued for a package is a key of the queue entries. -/
theorem enqueueAll_present (calls : List EnqueueCall) :
    ∀ (jq : JobQueueSt) (p : PackageId) (stage : TargetStage),
      ((∃ c ∈ calls, c.pkg.get_package_id = p ∧ c.stage = stage) ∨
        (keyFind jq.queue.entries (p, stage)).isSome = true) →
      (keyFind (enqueueAll jq calls).queue.entries (p, stage)).isSome =
        true := by
  induction calls with
  | nil =>
    intro jq p stage h
    rcases h with ⟨c, hc, _⟩ | h
    · simp at hc
    · exact h
  | cons c cs ih =>
    intro jq p stage h
    refine ih (JobQueue.enqueue jq c.pkg c.stage c.jobs) p stage ?_
    rcases h with ⟨c2, hc2, hcp, hcs⟩ | h
    · rcases List.mem_cons.mp hc2 with hc2 | hc2
      · subst hc2
        refine Or.inr ?_
        show (keyFind (entriesInsert jq.queue.entries Freshness.Fresh
          (c2.pkg.get_package_id, c2.stage) c2.pkg c2.jobs)
          (p, stage)).isSome = true
        rw [hcp, hcs]
        exact entriesInsert_present _ _ _ _ _
      · exact Or.inl ⟨c2, hc2, hcp, hcs⟩
    · refine Or.inr ?_
      show (keyFind (entriesInsert jq.queue.entries Freshness.Fresh
        (c.pkg.get_package_id, c.stage) c.pkg c.jobs)
        (p, stage)).isSome = true
      exact entriesInsert_keeps _ _ _ _ _ _ h

/-- Status-line accounting across the scheduling loop: the status lines a
trace emits for a package p are exactly the dequeue of the node
(p, StageStart); on success every entry has been finished, whose key was
necessarily dequeued; and the dequeued key set only grows. -/
theorem executeAux_status (fuel : Nat) (p : PackageId) :
    ∀ (jq : JobQueueSt) (inflight : List Message) (sched : List Nat)
      (r : ExecRes) (final : JobQueueSt) (tr : List Event),
      LoopInv jq inflight →
      executeAux fuel jq inflight sched = some (r, final, tr) →
      (statusCount tr p +
        (if (p, TargetStage.StageStart) ∈ jq.queue.dequeuedKeys
         then 1 else 0) =
        (if (p, TargetStage.StageStart) ∈ final.queue.dequeuedKeys
         then 1 else 0)) ∧
      (r = ExecRes.success → final.queue.entries = []) ∧
      (∀ e2 ∈ jq.queue.entries,
        e2 ∈ final.queue.entries ∨ e2.1 ∈ final.queue.dequeuedKeys) ∧
      (∀ k, k ∈ jq.queue.dequeuedKeys → k ∈ final.queue.dequeuedKeys) := by
  induction fuel with
  | zero =>
    intro jq inflight sched r final tr hinv h
    simp [executeAux] at h
  | succ f ih =>
    intro jq inflight sched r final tr hinv h
    rcases executeAux_succ_inv f jq inflight sched _ h with
      ⟨hlen, hout⟩ | ⟨hlen, i, sched2, m, inflight2, hsched, hpick, hcase⟩
    · have hf : final = jq := by
        simpa using congrArg (fun q => q.2.1) hout
      have htr : tr = [] := by
        simpa using congrArg (fun q => q.2.2) hout
      have hent : final.queue.entries = [] := by
        have hz : final.queue.entries.length = 0 := by
          rw [hf]
          exact hlen
        exact List.length_eq_zero.mp hz
      have hdeq : final.queue.dequeuedKeys = jq.queue.dequeuedKeys := by
        rw [hf]
      refine ⟨?_, fun _ => hent, ?_, ?_⟩
      · have h0 : statusCount ([] : List Event) p = 0 := rfl
        rw [htr, hdeq, h0]
        omega
      · intro e2 he2
        refine Or.inl ?_
        rw [hf]
        exact he2
      · intro k hk
        rw [hdeq]
        exact hk
    · have hinv1 := LoopInv_dispatchAll (jq.queue.entries.length + 1) jq
        inflight hinv
      have hD := dispatchAll_status (jq.queue.entries.length + 1) p jq
        (fun e2 he2 => (hinv.hentries e2 he2).1)
      obtain ⟨hDent, _hDstate, hDdeq⟩ :=
        dispatchAll_queue (jq.queue.entries.length + 1) jq
      rcases hcase with
        ⟨jq2, pevs, r2, final2, tr2, hproc, hrec, hout⟩ |
        ⟨e2, jq2, hproc, hrest⟩ | ⟨hproc, hout⟩
      · obtain ⟨_, _, _, hdeqEq, hentStep, _, _, hstat⟩ :=
          processMessage_ok_desc _ _ _ _ hproc
        have hr : r = r2 := by
          simpa using congrArg Prod.fst hout
        have hf : final = final2 := by
          simpa using congrArg (fun q => q.2.1) hout
        have htr : tr =
            (dispatchAll (jq.queue.entries.length + 1) jq).2.1 ++
              Event.recvMsg m :: pevs ++ tr2 := by
          simpa using congrArg (fun q => q.2.2) hout
        subst hf
        subst hr
        have hinv2 := LoopInv_process_ok _ _ _ _ _ _ _ hinv1 hpick hproc
        obtain ⟨ih1, ih2, ih3, ih4⟩ :=
          ih jq2 inflight2 sched2 r final tr2 hinv2 hrec
        rw [hdeqEq] at ih1 ih4
        refine ⟨?_, ih2, ?_, ?_⟩
        · rw [htr, statusCount_append, statusCount_append,
            statusCount_skip (Event.recvMsg m) pevs p rfl, hstat p]
          omega
        · intro e3 he3
          have he3b : e3 ∈ (dispatchAll (jq.queue.entries.length + 1)
              jq).1.queue.entries := by
            rw [hDent]
            exact he3
          rcases hentStep e3 he3b with he4 | he4
          · exact ih3 e3 he4
          · refine Or.inr ?_
            obtain ⟨pb, hpb, _⟩ := processMessage_ok_pending _ _ _ _ hproc
            have hm1 : (m.1, m.2.1) ∈ (dispatchAll
                (jq.queue.entries.length + 1) jq).1.queue.dequeuedKeys :=
              hinv1.hpendDeq _ (by simp [hpb])
            rw [he4]
            exact ih4 _ hm1
        · intro k hk
          exact ih4 k (hDdeq k hk)
      · obtain ⟨_, hqueue2, _, _, _⟩ := processMessage_fail_proj _ _ _ _ hproc
        have hr : r = ExecRes.failure e2 := by
          rcases hrest with ⟨_, ms, l3, s3, _, hout⟩ | ⟨_, hout⟩ <;>
            simpa using congrArg Prod.fst hout
        have hf : final = jq2 := by
          rcases hrest with ⟨_, ms, l3, s3, _, hout⟩ | ⟨_, hout⟩ <;>
            simpa using congrArg (fun q => q.2.1) hout
        subst hf
        have hstat2 : statusCount tr p = statusCount
            (dispatchAll (jq.queue.entries.length + 1) jq).2.1 p := by
          rcases hrest with ⟨_, ms, l3, s3, _, hout⟩ | ⟨_, hout⟩
          · have htr : tr =
                (dispatchAll (jq.queue.entries.length + 1) jq).2.1 ++
                  Event.recvMsg m :: Event.drainNotice ::
                    ms.map Event.recvMsg := by
              simpa using congrArg (fun q => q.2.2) hout
            rw [htr, statusCount_append, statusCount_skip _ _ _ rfl,
              statusCount_skip _ _ _ rfl, statusCount_map_recv]
            omega
          · have htr : tr =
                (dispatchAll (jq.queue.entries.length + 1) jq).2.1 ++
                  [Event.recvMsg m] := by
              simpa using congrArg (fun q => q.2.2) hout
            rw [htr, statusCount_append, statusCount_skip _ _ _ rfl]
            rfl
        refine ⟨?_, ?_, ?_, ?_⟩
        · rw [hstat2, hqueue2]
          exact hD
        · intro hcontr
          rw [hr] at hcontr
          exact ExecRes.noConfusion hcontr
        · intro e3 he3
          refine Or.inl ?_
          rw [hqueue2, hDent]
          exact he3
        · intro k hk
          rw [hqueue2]
          exact hDdeq k hk
      · have hr : r = ExecRes.lookupFailure := by
          simpa using congrArg Prod.fst hout
        have hf : final = (dispatchAll (jq.queue.entries.length + 1) jq).1 := by
          simpa using congrArg (fun q => q.2.1) hout
        have htr : tr =
            (dispatchAll (jq.queue.entries.length + 1) jq).2.1 ++
              [Event.recvMsg m] := by
          simpa using congrArg (fun q => q.2.2) hout
        subst hf
        refine ⟨?_, ?_, ?_, ?_⟩
        · rw [htr, statusCount_append, statusCount_skip _ _ _ rfl]
          have : statusCount ([] : List Event) p = 0 := rfl
          rw [this, Nat.add_zero]
          exact hD
        · intro hcontr
          rw [hr] at hcontr
          exact ExecRes.noConfusion hcontr
        · intro e3 he3
          refine Or.inl ?_
          rw [hDent]
          exact he3
        · intro k hk
          exact hDdeq k hk

/-- The per-job loop emits descriptions and submissions only, never a
status line. -/
theorem jobLoop_no_status (id : PackageId) (stage : TargetStage)
    (fresh : Freshness) (id2 : PackageId) (d : Freshness) :
    ∀ jobs : List (Job × Freshness),
      Event.statusLine id2 d ∉ (jobLoop id stage fresh jobs).1 := by
  intro jobs
  induction jobs with
  | nil => simp [jobLoop]
  | cons jf rest ih =>
    simp only [jobLoop]
    intro hmem
    rcases List.mem_append.mp hmem with h | h
    · by_cases he : jf.2.combine fresh = Freshness.Dirty
      · rw [if_pos he] at h
        rw [List.mem_singleton] at h
        exact Event.noConfusion h
      · rw [if_neg he] at h
        simp at h
    · rcases List.mem_cons.mp h with h | h
      · exact Event.noConfusion h
      · exact ih h

/-- Status accounting of a whole execution: the trace's status count for p
is the final dequeued flag of (p, StageStart); success drains the entry
list; and every initially registered node ends finished or dequeued. -/
theorem execute_statusCount (resolve : Resolve) (calls : List EnqueueCall)
    (sched : List Nat) (fuel : Nat) (p : PackageId)
    (r : ExecRes) (final : JobQueueSt) (tr : List Event)
    (h : execute resolve calls sched fuel = some (r, final, tr)) :
    statusCount tr p =
      (if (p, TargetStage.StageStart) ∈ final.queue.dequeuedKeys
       then 1 else 0) ∧
    (r = ExecRes.success → final.queue.entries = []) ∧
    (∀ e2 ∈ (enqueueAll (JobQueue.new resolve) calls).queue.entries,
      e2 ∈ final.queue.entries ∨ e2.1 ∈ final.queue.dequeuedKeys) := by
  obtain ⟨h1, h2, h3, _⟩ := executeAux_status fuel p
    (enqueueAll (JobQueue.new resolve) calls) [] sched r final tr
    (LoopInv_initial resolve calls) h
  have hdeq0 : (enqueueAll (JobQueue.new resolve) calls).queue.dequeuedKeys
      = [] :=
    (enqueueAll_proj calls (JobQueue.new resolve)).2.2.1
  rw [hdeq0] at h1
  refine ⟨?_, h2, h3⟩
  simpa using h1

/-- C6 confirmed: the status line is decided at the StageStart dispatch by
combining the node's incoming freshness with the package's aggregated
freshness state (the decided value carried by the line is exactly that
combine, one of the two mutually exclusive Fresh/Dirty outcomes); a
dispatch at any other stage emits no status line; over any execution a
package's status line appears at most once, and on a successful execution
exactly once for every package with an enqueued StageStart node. -/
theorem claim_c6_status_decision :
    (∀ (jq : JobQueueSt) (pkg : Package) (stage : TargetStage)
        (fresh : Freshness) (jobs : List (Job × Freshness)) (p : PackageId),
      statusCount (JobQueue.run jq pkg stage fresh jobs).2.1 p =
        if stage = TargetStage.StageStart ∧ p = pkg.get_package_id
        then 1 else 0) ∧
    (∀ (jq : JobQueueSt) (pkg : Package) (fresh : Freshness)
        (jobs : List (Job × Freshness)),
      Event.statusLine pkg.get_package_id
          (fresh.combine (stateIndex jq.state pkg.get_package_id)) ∈
        (JobQueue.run jq pkg TargetStage.StageStart fresh jobs).2.1) ∧
    (∀ (jq : JobQueueSt) (pkg : Package) (stage : TargetStage)
        (fresh : Freshness) (jobs : List (Job × Freshness))
        (id : PackageId) (d : Freshness),
      Event.statusLine id d ∈ (JobQueue.run jq pkg stage fresh jobs).2.1 →
      stage = TargetStage.StageStart ∧ id = pkg.get_package_id ∧
        d = fresh.combine (stateIndex jq.state id)) ∧
    (∀ (resolve : Resolve) (calls : List EnqueueCall) (sched : List Nat)
        (fuel : Nat) (p : PackageId),
      statusCount (traceOf (execute resolve calls sched fuel)) p ≤ 1) ∧
    (∀ (resolve : Resolve) (calls : List EnqueueCall) (sched : List Nat)
        (fuel : Nat) (p : PackageId),
      execResOf (execute resolve calls sched fuel) = some ExecRes.success →
      (∃ c ∈ calls, c.pkg.get_package_id = p ∧
        c.stage = TargetStage.StageStart) →
      statusCount (traceOf (execute resolve calls sched fuel)) p = 1) := by
  refine ⟨?_, ?_, ?_, ?_, ?_⟩
  · intro jq pkg stage fresh jobs p
    exact (run_events_counts jq pkg stage fresh jobs).2.2 p
  · intro jq pkg fresh jobs
    rw [run_events_shape]
    simp
  · intro jq pkg stage fresh jobs id d hmem
    rw [run_events_shape] at hmem
    rcases List.mem_cons.mp hmem with h | h
    · exact Event.noConfusion h
    rcases List.mem_append.mp h with h | h
    · by_cases hs : stage = TargetStage.StageStart
      · rw [if_pos hs] at h
        rw [List.mem_singleton] at h
        injection h with h1 h2
        refine ⟨hs, h1, ?_⟩
        rw [h1]
        exact h2
      · rw [if_neg hs] at h
        simp at h
    rcases List.mem_append.mp h with h | h
    · exact absurd h (jobLoop_no_status _ _ _ _ _ _)
    · by_cases hz : jobs.length = 0
      · rw [if_pos hz] at h
        rw [List.mem_singleton] at h
        exact Event.noConfusion h
      · rw [if_neg hz] at h
        simp at h
  · intro resolve calls sched fuel p
    cases hE : execute resolve calls sched fuel with
    | none => simp [traceOf, statusCount]
    | some out =>
      obtain ⟨r, final, tr⟩ := out
      obtain ⟨h1, _, _⟩ :=
        execute_statusCount resolve calls sched fuel p r final tr hE
      simp only [traceOf]
      rw [h1]
      by_cases hm : (p, TargetStage.StageStart) ∈ final.queue.dequeuedKeys
      · rw [if_pos hm]
      · rw [if_neg hm]
        omega
  · intro resolve calls sched fuel p hsucc hc
    cases hE : execute resolve calls sched fuel with
    | none =>
      rw [hE] at hsucc
      simp [execResOf] at hsucc
    | some out =>
      obtain ⟨r, final, tr⟩ := out
      rw [hE] at hsucc
      have hr : r = ExecRes.success := by
        simpa [execResOf] using hsucc
      obtain ⟨h1, h2, h3⟩ :=
        execute_statusCount resolve calls sched fuel p r final tr hE
      have hpres := enqueueAll_present calls (JobQueue.new resolve) p
        TargetStage.StageStart (Or.inl hc)
      rw [Option.isSome_iff_exists] at hpres
      obtain ⟨v, hv⟩ := hpres
      have hmem := keyFind_mem _ _ _ hv
      rcases h3 ((p, TargetStage.StageStart), v) hmem with hin | hdq
      · rw [h2 hr] at hin
        simp at hin
      · simp only [traceOf]
        rw [h1, if_pos hdq]

/-- C6 witness: the single-package five-stage execution succeeds and emits
exactly one status line for package 0. -/
theorem claim_c6_status_decision_witness :
    execResOf (execute soloResolve soloCalls [0, 0, 0, 0, 0] 7) =
        some ExecRes.success ∧
    statusCount (traceOf (execute soloResolve soloCalls [0, 0, 0, 0, 0] 7)) 0
      = 1 :=
  ⟨rfl, claim_c6_status_decision.2.2.2.2 soloResolve soloCalls
    [0, 0, 0, 0, 0] 7 0 rfl
    ⟨⟨⟨0⟩, TargetStage.StageStart, []⟩, by simp [soloCalls], rfl, rfl⟩⟩
